import Mathlib

/-!
# Verification of the coap-lite CoAP message core

A shallow embedding, in Lean 4, of the parts of the `coap-lite` Rust crate
that the specification's claims talk about:

* the wire codec (`src/header.rs`, `src/packet.rs`),
* the option value codec (`src/option_value.rs`),
* the block option value (`src/block_handler/block_value.rs`),
* the block-wise transfer coordinator (`src/block_handler/mod.rs`),
* the observation subject (`src/observe.rs`).

Conventions used throughout:

* Machine integers (`u8`, `u16`, `u32`, `usize`) are modelled as `Nat`;
  wherever the Rust code performs a narrowing cast or an overflowing
  operation, the model applies the corresponding `% 2^w` reduction.
  Where a quantity is bounded by its Rust type (for example a `u8` header
  byte), theorems carry that bound as an explicit hypothesis.
* Rust `Vec<u8>` becomes `List Nat`, `Result` becomes `Except`,
  `Option` stays `Option`.
* A Rust panic (a failed `assert!`, an `expect`, a division by zero) is
  modelled by returning `none` from an `Option`-valued function.
* `BTreeMap<u16, LinkedList<Vec<u8>>>` becomes a key-sorted association
  list `List (Nat × List (List Nat))`; the map operations used by the
  source (`entry().or_default().push_back`, `insert`, `get`) are modelled
  by `insertOption`, `setOption` and `getOptionVals` below.
* Recursive loops over byte buffers are given an explicit fuel argument
  (initially the buffer length); every iteration consumes at least one
  byte, so the fuel never runs out on the initial call.  The artificial
  fuel-exhausted branches are marked as unreachable.
-/

deriving instance DecidableEq for Except

namespace CoapLite

/-- `MessageError` from `src/error.rs`. -/
inductive MessageError where
  | invalidHeader
  | invalidPacketLength
  | invalidTokenLength
  | invalidOptionDelta
  | invalidOptionLength
deriving DecidableEq

/-- `MessageType` from `src/header.rs`. -/
inductive MessageType where
  | confirmable
  | nonConfirmable
  | acknowledgement
  | reset
deriving DecidableEq

/-- `RequestType` from `src/header.rs`. -/
inductive RequestType where
  | get
  | post
  | put
  | delete
  | unKnown
deriving DecidableEq

/-- `ResponseType` from `src/header.rs`. -/
inductive ResponseType where
  | created
  | deleted
  | valid
  | changed
  | content
  | continues
  | badRequest
  | unauthorized
  | badOption
  | forbidden
  | notFound
  | methodNotAllowed
  | notAcceptable
  | preconditionFailed
  | requestEntityTooLarge
  | unsupportedContentFormat
  | requestEntityIncomplete
  | tooManyRequests
  | internalServerError
  | notImplemented
  | badGateway
  | serviceUnavailable
  | gatewayTimeout
  | proxyingNotSupported
  | unKnown
deriving DecidableEq

/-- `MessageClass` from `src/header.rs`. -/
inductive MessageClass where
  | empty
  | request (r : RequestType)
  | response (r : ResponseType)
  | reserved
deriving DecidableEq

/-- `impl From<u8> for MessageClass` from `src/header.rs`. -/
def classOfByte (number : Nat) : MessageClass :=
  match number with
  | 0x00 => .empty
  | 0x01 => .request .get
  | 0x02 => .request .post
  | 0x03 => .request .put
  | 0x04 => .request .delete
  | 0x41 => .response .created
  | 0x42 => .response .deleted
  | 0x43 => .response .valid
  | 0x44 => .response .changed
  | 0x45 => .response .content
  | 0x5F => .response .continues
  | 0x80 => .response .badRequest
  | 0x81 => .response .unauthorized
  | 0x82 => .response .badOption
  | 0x83 => .response .forbidden
  | 0x84 => .response .notFound
  | 0x85 => .response .methodNotAllowed
  | 0x86 => .response .notAcceptable
  | 0x8C => .response .preconditionFailed
  | 0x8D => .response .requestEntityTooLarge
  | 0x8F => .response .unsupportedContentFormat
  | 0x88 => .response .requestEntityIncomplete
  | 0x9D => .response .tooManyRequests
  | 0x90 => .response .internalServerError
  | 0x91 => .response .notImplemented
  | 0x92 => .response .badGateway
  | 0x93 => .response .serviceUnavailable
  | 0x94 => .response .gatewayTimeout
  | 0x95 => .response .proxyingNotSupported
  | _ => .reserved

/-- `impl From<MessageClass> for u8` from `src/header.rs` (the catch-all arm
maps `Request(UnKnown)`, `Response(UnKnown)` and `Reserved` to `0xFF`). -/
def classToByte (class_ : MessageClass) : Nat :=
  match class_ with
  | .empty => 0x00
  | .request .get => 0x01
  | .request .post => 0x02
  | .request .put => 0x03
  | .request .delete => 0x04
  | .response .created => 0x41
  | .response .deleted => 0x42
  | .response .valid => 0x43
  | .response .changed => 0x44
  | .response .content => 0x45
  | .response .continues => 0x5F
  | .response .badRequest => 0x80
  | .response .unauthorized => 0x81
  | .response .badOption => 0x82
  | .response .forbidden => 0x83
  | .response .notFound => 0x84
  | .response .methodNotAllowed => 0x85
  | .response .notAcceptable => 0x86
  | .response .preconditionFailed => 0x8C
  | .response .requestEntityTooLarge => 0x8D
  | .response .unsupportedContentFormat => 0x8F
  | .response .requestEntityIncomplete => 0x88
  | .response .tooManyRequests => 0x9D
  | .response .internalServerError => 0x90
  | .response .notImplemented => 0x91
  | .response .badGateway => 0x92
  | .response .serviceUnavailable => 0x93
  | .response .gatewayTimeout => 0x94
  | .response .proxyingNotSupported => 0x95
  | _ => 0xFF

/-- `Header` from `src/header.rs`: the packed `ver_type_tkl` byte, the
decoded code and the 16-bit message id. -/
structure Header where
  verTypeTkl : Nat
  code : MessageClass
  messageId : Nat
deriving DecidableEq

/-- `Header::get_version`. -/
def Header.getVersion (h : Header) : Nat := h.verTypeTkl >>> 6

/-- `Header::set_version` (the `v << 6` is a `u8` shift, hence `% 256`). -/
def Header.setVersion (h : Header) (v : Nat) : Header :=
  { h with verTypeTkl := ((v <<< 6) % 256) ||| (0x3F &&& h.verTypeTkl) }

/-- The two type bits of a header, `(0x30 & ver_type_tkl) >> 4`. -/
def Header.typeBits (h : Header) : Nat := (0x30 &&& h.verTypeTkl) >>> 4

/-- Numeric value of a `MessageType`, as in `Header::set_type`. -/
def MessageType.toBits : MessageType → Nat
  | .confirmable => 0
  | .nonConfirmable => 1
  | .acknowledgement => 2
  | .reset => 3

/-- `Header::get_type`.  The source's `unreachable!()` arm corresponds to
the final `else`: `typeBits` is always at most 3, so that branch coincides
with the `tn = 3` case and is never observed. -/
def Header.getType (h : Header) : MessageType :=
  let tn := h.typeBits
  if tn = 0 then .confirmable
  else if tn = 1 then .nonConfirmable
  else if tn = 2 then .acknowledgement
  else .reset

/-- `Header::set_type`. -/
def Header.setType (h : Header) (t : MessageType) : Header :=
  { h with verTypeTkl := (t.toBits <<< 4) ||| (0xCF &&& h.verTypeTkl) }

/-- `Header::get_token_length`. -/
def Header.getTokenLength (h : Header) : Nat := 0x0F &&& h.verTypeTkl

/-- `Header::set_token_length`.  The source `assert_eq!(0xF0 & tkl, 0)`
panics when the argument has a high nibble; the panic is modelled by
`none`. -/
def Header.setTokenLength (h : Header) (tkl : Nat) : Option Header :=
  if 0xF0 &&& tkl = 0 then
    some { h with verTypeTkl := tkl ||| (0xF0 &&& h.verTypeTkl) }
  else
    none

/-- The default header from `src/header.rs` (`ver_type_tkl = 0x40`,
code GET, message id 0). -/
def defaultHeader : Header :=
  { verTypeTkl := 0x40, code := classOfByte 0x01, messageId := 0 }

/-- The option map of a packet: `BTreeMap<u16, LinkedList<Vec<u8>>>`
modelled as a key-sorted association list. -/
abbrev OptMap := List (Nat × List (List Nat))

/-- `options.entry(n).or_default().push_back(v)`: append `v` to the value
list of key `n`, creating the key at its sorted position if absent.  This
is also `Packet::add_option`. -/
def insertOption : OptMap → Nat → List Nat → OptMap
  | [], n, v => [(n, [v])]
  | (k, vs) :: rest, n, v =>
    if n < k then (n, [v]) :: (k, vs) :: rest
    else if n = k then (k, vs ++ [v]) :: rest
    else (k, vs) :: insertOption rest n v

/-- `BTreeMap::insert` (replace): `Packet::set_option`. -/
def setOption : OptMap → Nat → List (List Nat) → OptMap
  | [], n, vs => [(n, vs)]
  | (k, ws) :: rest, n, vs =>
    if n < k then (n, vs) :: (k, ws) :: rest
    else if n = k then (n, vs) :: rest
    else (k, ws) :: setOption rest n vs

/-- `BTreeMap::get`: `Packet::get_option`. -/
def getOptionVals : OptMap → Nat → Option (List (List Nat))
  | [], _ => none
  | (k, vs) :: rest, n => if k = n then some vs else getOptionVals rest n

/-- `Packet` from `src/packet.rs`. -/
structure Packet where
  header : Header
  token : List Nat
  options : OptMap
  payload : List Nat
deriving DecidableEq

/-- `Packet::get_first_option`. -/
def Packet.getFirstOption (p : Packet) (n : Nat) : Option (List Nat) :=
  (getOptionVals p.options n).bind List.head?

/-- `Packet::add_option`. -/
def Packet.addOption (p : Packet) (n : Nat) (v : List Nat) : Packet :=
  { p with options := insertOption p.options n v }

/-- `Packet::set_option`. -/
def Packet.setOptionList (p : Packet) (n : Nat) (vs : List (List Nat)) :
    Packet :=
  { p with options := setOption p.options n vs }

/-- `Packet::set_token`: sets the header token length (possibly panicking
via the `assert` in `set_token_length`, after the `token.len() as u8`
cast) and then stores the token. -/
def Packet.setToken (p : Packet) (token : List Nat) : Option Packet :=
  (p.header.setTokenLength (token.length % 256)).map
    fun h => { p with header := h, token := token }

/-- `Packet::new` / `Default::default()`. -/
def defaultPacket : Packet :=
  { header := defaultHeader, token := [], options := [], payload := [] }

/-! ## Option value codec (`src/option_value.rs`) -/

/-- The little-endian byte loop inside `option_from_uint`:
`while draining_value > 0 { output.push(draining_value & 0xff); ... }`.
Structural recursion on a fuel argument so that the definition reduces in
the kernel; `fuel ≥ v` always suffices since the value shrinks by a factor
of 256 each round (see `leBytesLoopAux_fuel_irrel`). -/
def leBytesLoopAux : Nat → Nat → List Nat
  | 0, _ => []
  | fuel + 1, v => if v = 0 then [] else (v &&& 0xFF) :: leBytesLoopAux fuel (v >>> 8)

/-- The little-endian byte loop of `option_from_uint`, at sufficient fuel. -/
def leBytesLoop (v : Nat) : List Nat := leBytesLoopAux v v

/-- `option_from_uint` from `src/option_value.rs`.  The source's
`assert!(output.len() < value_size)` is provably unreachable at every call
site (all callers pass a value below `256 ^ value_size`; see
`optionFromUint_length_le`), so the model omits it. -/
def optionFromUint (v : Nat) (valueSize : Nat) : List Nat :=
  if v = 0 then []
  else if v < 256 then [v]
  else
    let _ := valueSize
    (leBytesLoop v).reverse

/-- The error payload of `IncompatibleOptionValueFormat` (the formatted
message text of the source is not modelled). -/
structure IncompatibleFormat where
  deriving DecidableEq

/-- `option_to_uint` from `src/option_value.rs`. -/
def optionToUint (encoded : List Nat) (valueSize : Nat) :
    Except IncompatibleFormat Nat :=
  if valueSize < encoded.length then .error {}
  else .ok (encoded.foldl (fun acc b => (acc <<< 8) + b) 0)

/-- Specification-side definition (from the spec's words, for claim C5):
the minimal-length big-endian byte string of a natural number — high-order
zero bytes stripped, `0` encoded as the empty string.  Fuel-structured for
kernel reducibility; `fuel ≥ v` always suffices. -/
def bigEndianMinimalAux : Nat → Nat → List Nat
  | 0, _ => []
  | fuel + 1, v => if v = 0 then [] else bigEndianMinimalAux fuel (v / 256) ++ [v % 256]

/-- Minimal-length big-endian byte string (spec-side, claim C5). -/
def bigEndianMinimal (v : Nat) : List Nat := bigEndianMinimalAux v v

/-! ## Packet wire codec (`src/packet.rs`) -/

/-- The nibble chosen by `to_bytes_internal` for a delta or a length:
literal when `≤ 12`, the 1-byte escape `13` when `< 269`, the 2-byte
escape `14` otherwise. -/
def extNibble (n : Nat) : Nat :=
  if n ≤ 12 then n else if n < 269 then 13 else 14

/-- The extension bytes emitted for an option delta (the delta is a `u16`
in the source; the `as u8` casts are the `% 256`). -/
def deltaExtBytes (delta : Nat) : List Nat :=
  if delta ≤ 12 then []
  else if delta < 269 then [(delta - 13) % 256]
  else [((delta - 269) >>> 8) % 256, (delta - 269) &&& 0xFF]

/-- The extension bytes emitted for an option value length (the source
casts `value.len() - 269` to `u16` first, hence the `% 65536`). -/
def lengthExtBytes (len : Nat) : List Nat :=
  if len ≤ 12 then []
  else if len < 269 then [(len - 13) % 256]
  else [(((len - 269) % 65536) >>> 8) % 256, ((len - 269) % 65536) &&& 0xFF]

/-- One encoded option entry of `to_bytes_internal`: the leading byte
(delta nibble high, length nibble low), delta extension, length extension,
then the value bytes. -/
def encodeOneValue (delta : Nat) (v : List Nat) : List Nat :=
  ((extNibble delta <<< 4) ||| extNibble v.length)
    :: (deltaExtBytes delta ++ (lengthExtBytes v.length ++ v))

/-- The inner loop of `to_bytes_internal` over the values of one option
number `n`: the first value carries delta `n - running`, after which the
running number becomes `n` and later values of the same number carry
delta 0. -/
def encodeValuesList (n running : Nat) : List (List Nat) → List Nat
  | [] => []
  | v :: rest => encodeOneValue (n - running) v ++ encodeValuesList n n rest

/-- The outer loop of `to_bytes_internal` over the (ascending) option
map.  An empty value list emits nothing and leaves the running number
unchanged. -/
def encodeOptionsList (running : Nat) : OptMap → List Nat
  | [] => []
  | (n, vs) :: rest =>
    encodeValuesList n running vs ++
      encodeOptionsList (if vs.isEmpty then running else n) rest

/-- `HeaderRaw::serialize_into` preceded by `Header::to_raw`: the four
header bytes.  (`serialize_into`'s capacity check cannot fail in
`to_bytes_internal`, which always reserves `buf_length ≥ 4`.) -/
def headerSerialize (h : Header) : List Nat :=
  [h.verTypeTkl, classToByte h.code, (h.messageId / 256) % 256, h.messageId % 256]

/-- `Packet::to_bytes_internal`.  `buf_length` counts the payload even
when the payload marker is not emitted (code `Empty`), exactly as the
source does. -/
def toBytesInternal (p : Packet) (limit : Option Nat) :
    Except MessageError (List Nat) :=
  let optionsBytes := encodeOptionsList 0 p.options
  let marker := p.header.code ≠ MessageClass.empty ∧ p.payload ≠ []
  let bufLength := 4 + p.payload.length + p.token.length
    + (if marker then 1 else 0) + optionsBytes.length
  if limit.isSome ∧ limit.getD 0 < bufLength then .error .invalidPacketLength
  else
    .ok (headerSerialize p.header ++ p.token ++ optionsBytes
      ++ (if marker then 255 :: p.payload else []))

/-- `Packet::to_bytes` (without the `udp` feature `MAX_SIZE = 1280`). -/
def toBytes (p : Packet) : Except MessageError (List Nat) :=
  toBytesInternal p (some 1280)

/-- `Packet::to_bytes_unlimited`. -/
def toBytesUnlimited (p : Packet) : Except MessageError (List Nat) :=
  toBytesInternal p none

/-- The option-delta escape handling of `Packet::from_bytes`: nibble 13
reads one extension byte (missing byte: `InvalidOptionLength`), nibble 14
reads two big-endian extension bytes and performs the `u16`
`checked_add(269)` (overflow: `InvalidOptionDelta`), nibble 15 is
`InvalidOptionDelta`.  Returns the decoded delta and the remaining
buffer. -/
def parseDelta (nib : Nat) (buf : List Nat) :
    Except MessageError (Nat × List Nat) :=
  if nib = 13 then
    match buf with
    | [] => .error .invalidOptionLength
    | x :: r => .ok (x + 13, r)
  else if nib = 14 then
    match buf with
    | x :: y :: r =>
      if x * 256 + y + 269 ≤ 65535 then .ok (x * 256 + y + 269, r)
      else .error .invalidOptionDelta
    | _ => .error .invalidOptionLength
  else if nib = 15 then .error .invalidOptionDelta
  else .ok (nib, buf)

/-- The option-length escape handling of `Packet::from_bytes`; every
failure here is `InvalidOptionLength`. -/
def parseLength (nib : Nat) (buf : List Nat) :
    Except MessageError (Nat × List Nat) :=
  if nib = 13 then
    match buf with
    | [] => .error .invalidOptionLength
    | x :: r => .ok (x + 13, r)
  else if nib = 14 then
    match buf with
    | x :: y :: r =>
      if x * 256 + y + 269 ≤ 65535 then .ok (x * 256 + y + 269, r)
      else .error .invalidOptionLength
    | _ => .error .invalidOptionLength
  else if nib = 15 then .error .invalidOptionLength
  else .ok (nib, buf)

/-- The option/payload loop of `Packet::from_bytes`.  Returns the decoded
option map together with the payload bytes (everything after a `0xFF`
marker, or `[]` when the buffer ends without one).  Fuel-structured: each
iteration consumes at least the leading byte, so fuel equal to the buffer
length never runs out (the fuel-exhausted branch is unreachable for the
initial call made by `fromBytes`). -/
def decodeOptionsLoop :
    Nat → List Nat → Nat → OptMap → Except MessageError (OptMap × List Nat)
  | _, [], _, acc => .ok (acc, [])
  | 0, _ :: _, _, _ => .error .invalidOptionLength
  | fuel + 1, b :: rest, running, acc =>
    if b = 255 then .ok (acc, rest)
    else
      match parseDelta (b >>> 4) rest with
      | .error e => .error e
      | .ok (delta, r1) =>
        match parseLength (b &&& 0xF) r1 with
        | .error e => .error e
        | .ok (len, r2) =>
          if 65535 < running + delta then .error .invalidOptionDelta
          else if r2.length < len then .error .invalidOptionLength
          else
            decodeOptionsLoop fuel (r2.drop len) (running + delta)
              (insertOption acc (running + delta) (r2.take len))

/-- The option map flattened to one `(number, value)` pair per encoded
option entry, in encoding order. -/
def flattenOpts : OptMap → List (Nat × List Nat)
  | [] => []
  | (n, vs) :: rest => vs.map (fun v => (n, v)) ++ flattenOpts rest

/-- `to_bytes_internal`'s option loop over the flattened pairs: each pair
is encoded with the delta from the running number, which then becomes the
pair's number. -/
def encodeFlat : Nat → List (Nat × List Nat) → List Nat
  | _, [] => []
  | running, (n, v) :: ps => encodeOneValue (n - running) v ++ encodeFlat n ps

/-- The flattened pairs are numbered non-decreasingly starting at
`running`, with every number a `u16`. -/
def pairsOrdered : Nat → List (Nat × List Nat) → Prop
  | _, [] => True
  | running, (n, _) :: ps => running ≤ n ∧ n ≤ 65535 ∧ pairsOrdered n ps

/-- The running option number after encoding a list of flattened pairs. -/
def lastKey : Nat → List (Nat × List Nat) → Nat
  | running, [] => running
  | _, (n, _) :: ps => lastKey n ps

/-- The validity conditions of claim C1 for a message, plus the `u16`
bounds inherent in the Rust types (`message_id : u16`, option numbers are
`u16` keys): the header's token-length field equals the token's length,
the token has at most 8 bytes, the option map is strictly sorted by
number with no empty value list, and the payload is empty whenever the
code is `Empty`. -/
def PacketValid (p : Packet) : Prop :=
  p.header.messageId < 65536 ∧
  p.header.getTokenLength = p.token.length ∧
  p.token.length ≤ 8 ∧
  List.Pairwise (fun a b => a.1 < b.1) p.options ∧
  (∀ pr ∈ p.options, pr.1 ≤ 65535 ∧ pr.2 ≠ []) ∧
  (p.header.code = MessageClass.empty → p.payload = [])

instance (p : Packet) : Decidable (PacketValid p) := by
  unfold PacketValid
  infer_instance

/-- `Packet::from_bytes`.  A header shorter than 4 bytes fails inside
`HeaderRaw::try_from` and is mapped to `InvalidHeader` by the outer
`match`, exactly as in the source. -/
def fromBytes (buf : List Nat) : Except MessageError Packet :=
  match buf with
  | b0 :: b1 :: b2 :: b3 :: rest =>
    let tkl := 0x0F &&& b0
    if 8 < tkl then .error .invalidTokenLength
    else if rest.length < tkl then .error .invalidTokenLength
    else
      match decodeOptionsLoop (rest.drop tkl).length (rest.drop tkl) 0 [] with
      | .error e => .error e
      | .ok (options, payload) =>
        .ok { header := { verTypeTkl := b0, code := classOfByte b1,
                          messageId := b2 * 256 + b3 },
              token := rest.take tkl, options := options, payload := payload }
  | _ => .error .invalidHeader

/-- The delta field of the leading option-entry byte, observed at full
precision (no `u16` cap): `none` when the field cannot be observed (the
15 escape, or missing extension bytes). -/
def observeDelta (nib : Nat) (buf : List Nat) : Option (Nat × List Nat) :=
  if nib = 13 then
    match buf with
    | [] => none
    | x :: r => some (x + 13, r)
  else if nib = 14 then
    match buf with
    | x :: y :: r => some (x * 256 + y + 269, r)
    | _ => none
  else if nib = 15 then none
  else some (nib, buf)

/-- Claim-side instrument for C4: scans an option byte stream with the
same field layout as `decodeOptionsLoop`, tracking the running sum of the
observed deltas at full precision (no `u16` cap).  It returns `some e`
exactly when some option entry is reached at which the running sum would
exceed 65535, where `e` is the codec error the decoder raises there: the
length field is processed before the number overflow check, so a
malformed length field at the overflowing entry yields
`InvalidOptionLength`, every other overflow `InvalidOptionDelta`. -/
def sumOverflowError : Nat → List Nat → Nat → Option MessageError
  | _, [], _ => none
  | 0, _ :: _, _ => none
  | fuel + 1, b :: rest, running =>
    if b = 255 then none
    else
      match observeDelta (b >>> 4) rest with
      | none => none
      | some (delta, r1) =>
        if 65535 < running + delta then
          if 65535 < delta then some .invalidOptionDelta
          else
            match parseLength (b &&& 0xF) r1 with
            | .error e => some e
            | .ok _ => some .invalidOptionDelta
        else
          match parseLength (b &&& 0xF) r1 with
          | .error _ => none
          | .ok (len, r2) =>
            if r2.length < len then none
            else sumOverflowError fuel (r2.drop len) (running + delta)

/-! ## Block option value (`src/block_handler/block_value.rs`) -/

/-- `InvalidBlockValue` from `src/error.rs` (`TryFromIntError` carries no
information that the claims inspect). -/
inductive InvalidBlockValue where
  | sizeExponentEncodingError (size : Nat)
  | typeBoundsError
deriving DecidableEq

/-- `BlockValue` from `src/block_handler/block_value.rs`. -/
structure BlockValue where
  num : Nat
  more : Bool
  sizeExponent : Nat
deriving DecidableEq

/-- `BlockValue::largest_power_of_2_not_in_excess` (with
`usize::BITS = 64`). -/
def largestPowerOf2NotInExcess (target : Nat) : Option Nat :=
  if target = 0 then none
  else
    match (List.range 64).find? (fun i => 1 <<< i > target) with
    | some size => some (size - 1)
    | none => some 64

/-- `BlockValue::new`. -/
def blockNew (num : Nat) (more : Bool) (size : Nat) :
    Except InvalidBlockValue BlockValue :=
  match largestPowerOf2NotInExcess size with
  | none => .error (.sizeExponentEncodingError size)
  | some trueSizeExponent =>
    -- u8::try_from(true_size_exponent.saturating_sub(4))
    if 255 < trueSizeExponent - 4 then .error .typeBoundsError
    else
      let sizeExponent := trueSizeExponent - 4
      if 0x7 < sizeExponent then .error (.sizeExponentEncodingError size)
      else if 65535 < num then .error .typeBoundsError
      else .ok { num := num, more := more, sizeExponent := sizeExponent }

/-- `BlockValue::size`. -/
def BlockValue.size (b : BlockValue) : Nat := 1 <<< (b.sizeExponent + 4)

/-- `impl From<BlockValue> for Vec<u8>`: the scalar is assembled in `u16`
arithmetic, so the `num << 4` shift is reduced `% 2^16`. -/
def blockToBytes (b : BlockValue) : List Nat :=
  let scalar :=
    ((b.num <<< 4) % 65536) ||| (((if b.more then 1 else 0) <<< 3)
      ||| (b.sizeExponent &&& 0x7))
  optionFromUint scalar 2

/-- `impl TryFrom<Vec<u8>> for BlockValue`. -/
def blockFromBytes (value : List Nat) :
    Except IncompatibleFormat BlockValue :=
  match optionToUint value 2 with
  | .error e => .error e
  | .ok scalar =>
    .ok { num := scalar >>> 4,
          more := (scalar >>> 3) &&& 0x1 = 0x1,
          sizeExponent := scalar &&& 0x7 }

/-! ## Block-wise transfer coordinator (`src/block_handler/mod.rs`) -/

/-- `HandlingError` from `src/error.rs`, abstracted to the response-code
payload (the human-readable message strings are not modelled; none of the
claims inspect them). -/
inductive HandlingErr where
  | notHandled
  | notFound
  | badRequest
  | methodNotSupported
  | internal
deriving DecidableEq

/-- `CoapResponse` from `src/response.rs`. -/
structure CoapResponseM where
  message : Packet
deriving DecidableEq

/-- `CoapRequest` from `src/request.rs`. -/
structure CoapRequestM (Endpoint : Type) where
  message : Packet
  response : Option CoapResponseM
  source : Option Endpoint
deriving DecidableEq

/-- `Packet::get_first_option_as::<BlockValue>(tp).and_then(|x| x.ok())`
as used by the block handler. -/
def getFirstBlockOption (p : Packet) (n : Nat) : Option BlockValue :=
  match p.getFirstOption n with
  | none => none
  | some v =>
    match blockFromBytes v with
    | .ok b => some b
    | .error _ => none

/-- `extending_splice` from `src/block_handler/mod.rs`, with the range
given as `start..stop` (the only form used by the source; the
`Bound::Unbounded => panic!()` arm is therefore not reachable).  The
returned `Splice` iterator is dropped immediately at the call site, which
applies the replacement. -/
def extendingSplice (dst : List Nat) (startIdx stopIdx : Nat)
    (replaceWith : List Nat) (maximumReserveLen : Nat) :
    Except String (List Nat) :=
  -- end_index_plus_1.checked_sub(dst.len())
  if dst.length ≤ stopIdx then
    if maximumReserveLen < stopIdx - dst.length then
      .error "extend_len exceeds maximum_extend_len"
    else
      let extended := dst ++ List.replicate (stopIdx - dst.length) 0
      .ok (extended.take startIdx ++ replaceWith ++ extended.drop stopIdx)
  else .ok (dst.take startIdx ++ replaceWith ++ dst.drop stopIdx)

/-- `MAXIMUM_UNCOMMITTED_BUFFER_RESERVE_LENGTH` (16 KiB). -/
def maximumUncommittedBufferReserveLength : Nat := 16 * 1024

/-- `BLOCK_OPTIONS_MAX_LENGTH`. -/
def blockOptionsMaxLength : Nat := 12

/-- `slice::chunks` on byte vectors (panics on size 0 in Rust; the block
handler only calls it with a block size `≥ 16`).  Fuel-structured; fuel
equal to the list length suffices whenever `size > 0`. -/
def chunksOfAux : Nat → Nat → List Nat → List (List Nat)
  | _, _, [] => []
  | 0, _, _ :: _ => []
  | fuel + 1, size, l => l.take size :: chunksOfAux fuel size (l.drop size)

/-- `slice::chunks` at sufficient fuel. -/
def chunksOf (size : Nat) (l : List Nat) : List (List Nat) :=
  chunksOfAux l.length size l

/-- `BlockState` from `src/block_handler/mod.rs`. -/
structure BlockState where
  lastRequestBlock2 : Option BlockValue
  cachedResponse : Option Packet
  cachedRequestPayload : Option (List Nat)
deriving DecidableEq

/-- `BlockState::default()`. -/
def defaultBlockState : BlockState :=
  { lastRequestBlock2 := none, cachedResponse := none,
    cachedRequestPayload := none }

/-- `RequestCacheKey` from `src/block_handler/mod.rs`.  The `path` field
is `request.get_path_as_vec().unwrap_or_default()`; the model keeps the
raw UriPath byte segments (UTF-8 encoding of valid strings is injective,
so key equality is preserved; the `unwrap_or_default` collapse of
invalid-UTF-8 paths is abstracted away and plays no role in the claims,
which concern a single request at a time). -/
structure RequestCacheKey (Endpoint : Type) where
  requestTypeOrd : Nat
  path : List (List Nat)
  requester : Option Endpoint
deriving DecidableEq

/-- `CoapRequest::get_method` (this snapshot's `RequestType` has the four
RFC 7252 methods; everything else maps to `UnKnown`). -/
def getMethod (p : Packet) : RequestType :=
  match p.header.code with
  | .request .get => .get
  | .request .post => .post
  | .request .put => .put
  | .request .delete => .delete
  | _ => .unKnown

/-- `impl From<&CoapRequest> for RequestCacheKey`. -/
def requestCacheKey {E : Type} (req : CoapRequestM E) : RequestCacheKey E :=
  { requestTypeOrd := classToByte (.request (getMethod req.message)),
    path := (getOptionVals req.message.options 11).getD [],
    requester := req.source }

/-- The block handler's state.  The `lru_time_cache::LruCache` keyed by
`RequestCacheKey` is modelled as an association list; the time-based
expiry and LRU eviction are not modelled (the claims under verification
concern the data flow of single calls, not eviction). -/
structure BlockHandlerM (Endpoint : Type) where
  maxTotalMessageSize : Nat
  states : List (RequestCacheKey Endpoint × BlockState)
deriving DecidableEq

/-- Cache lookup. -/
def lookupState {E : Type} [DecidableEq E]
    (states : List (RequestCacheKey E × BlockState))
    (key : RequestCacheKey E) : Option BlockState :=
  match states with
  | [] => none
  | (k, st) :: rest =>
    if k = key then some st else lookupState rest key

/-- Cache write-back of the state mutated through the `entry` handle. -/
def insertState {E : Type} [DecidableEq E]
    (states : List (RequestCacheKey E × BlockState))
    (key : RequestCacheKey E) (st : BlockState) :
    List (RequestCacheKey E × BlockState) :=
  match states with
  | [] => [(key, st)]
  | (k, old) :: rest =>
    if k = key then (k, st) :: rest else (k, old) :: insertState rest key st

/-- `BlockHandler::compute_message_size_hack`: encodes the packet with the
payload momentarily removed and adds the payload length back.  The
source's `.expect(...)` panic (encoding failure) is modelled by `none`. -/
def computeMessageSizeHack (p : Packet) : Option Nat :=
  match toBytes { p with payload := [] } with
  | .ok bytes => some (bytes.length + p.payload.length)
  | .error _ => none

/-- `BlockHandler::negotiate_block_size_if_necessary`.  `none` models the
two panics reachable in the source: the `usize` underflow of
`message_size + 12 - total_payload_size` (never reached: both call sites
pass `message_size ≥ total_payload_size`) and the division by a
negotiated block size of zero. -/
def negotiateBlockSizeIfNecessary (requestBlock : Option BlockValue)
    (messageSize totalPayloadSize maxTotalMessageSize : Nat) :
    Option (Except HandlingErr (Option BlockValue)) :=
  if messageSize + blockOptionsMaxLength < totalPayloadSize then none
  else
    let maxNonPayloadSize := messageSize + blockOptionsMaxLength - totalPayloadSize
    -- max_total_message_size.checked_sub(max_non_payload_size)
    if maxTotalMessageSize < maxNonPayloadSize then some (.error .internal)
    else
      let maxBlockSize := maxTotalMessageSize - maxNonPayloadSize
      match requestBlock with
      | some rb =>
        let negotiatedBlockSize := min rb.size maxBlockSize
        if negotiatedBlockSize = 0 then none
        else
          let replyStartOffset := rb.num * rb.size
          let replyEndOffset := replyStartOffset + negotiatedBlockSize
          let num := replyStartOffset / negotiatedBlockSize
          let more := decide (replyEndOffset < totalPayloadSize)
          match blockNew num more negotiatedBlockSize with
          | .ok b => some (.ok (some b))
          | .error _ => some (.error .internal)
      | none =>
        if totalPayloadSize < maxBlockSize then some (.ok none)
        else
          match blockNew 0 true maxBlockSize with
          | .ok b => some (.ok (some b))
          | .error _ => some (.error .internal)

/-- `BlockHandler::packet_clone_limited`: copies version, type, code,
token and all options from `src` into `dst`, leaving `dst`'s message id
and payload alone.  `none` models the (token-length) assert inside
`set_token`. -/
def packetCloneLimited (dst src : Packet) : Option Packet :=
  let h1 := dst.header.setVersion src.header.getVersion
  let h2 := h1.setType src.header.getType
  let h3 := { h2 with code := src.header.code }
  match h3.setTokenLength (src.token.length % 256) with
  | none => none
  | some h4 =>
    some { dst with
      header := h4,
      token := src.token,
      options := src.options.foldl (fun m pr => setOption m pr.1 pr.2)
        dst.options }

/-- Mutating the code of a packet (`header.code = ...`). -/
def Packet.withCode (p : Packet) (c : MessageClass) : Packet :=
  { p with header := { p.header with code := c } }

/-- `BlockHandler::maybe_serve_cached_response`. -/
def maybeServeCachedResponse {E : Type} (req : CoapRequestM E)
    (requestBlock2 : BlockValue) (cachedResponse : Packet) :
    Option (Except HandlingErr Bool × CoapRequestM E) :=
  match req.response with
  | none => some (.error .notHandled, req)
  | some rsp =>
    match packetCloneLimited rsp.message cachedResponse with
    | none => none
    | some cloned =>
      let requestBlockSize := requestBlock2.size
      match (chunksOf requestBlockSize cachedResponse.payload).drop
          requestBlock2.num with
      | [] =>
        some (.error .badRequest,
          { req with response := some { message := cloned } })
      | chunk :: restChunks =>
        let hasMoreChunks := decide (restChunks ≠ [])
        let responseBlock2 : BlockValue :=
          { requestBlock2 with more := hasMoreChunks }
        let msg := ({ cloned with payload := chunk }).setOptionList 23
          [blockToBytes responseBlock2]
        some (.ok hasMoreChunks,
          { req with response := some { message := msg } })

/-- `BlockHandler::maybe_handle_request_block1`. -/
def maybeHandleRequestBlock1 {E : Type} (req : CoapRequestM E)
    (maxTotalMessageSize : Nat) (state : BlockState) :
    Option (Except HandlingErr Bool × CoapRequestM E × BlockState) :=
  let requestBlock1 := getFirstBlockOption req.message 27
  match computeMessageSizeHack req.message with
  | none => none
  | some messageSize =>
    match negotiateBlockSizeIfNecessary requestBlock1 messageSize
        req.message.payload.length maxTotalMessageSize with
    | none => none
    | some (.error e) => some (.error e, req, state)
    | some (.ok maybeResponseBlock1) =>
      match requestBlock1, maybeResponseBlock1 with
      | some rb, some responseBlock1 =>
        let cachedPayload := state.cachedRequestPayload.getD []
        let payloadOffset := rb.num * rb.size
        match extendingSplice cachedPayload payloadOffset
            (payloadOffset + rb.size) req.message.payload
            maximumUncommittedBufferReserveLength with
        | .error _ =>
          some (.error .internal, req,
            { state with cachedRequestPayload := some cachedPayload })
        | .ok newBuf =>
          let state1 := { state with cachedRequestPayload := some newBuf }
          if rb.more then
            match req.response with
            | none => some (.error .notHandled, req, state1)
            | some rsp =>
              let msg := ((rsp.message.addOption 27
                (blockToBytes responseBlock1)).withCode
                  (.response .continues))
              some (.ok true, { req with response := some { message := msg } },
                state1)
          else
            let state2 := { state1 with cachedRequestPayload := none }
            let req1 := { req with message :=
              { req.message with payload := newBuf } }
            match req1.response with
            | none => some (.error .notHandled, req1, state2)
            | some rsp =>
              let msg := rsp.message.addOption 27 (blockToBytes responseBlock1)
              some (.ok false,
                { req1 with response := some { message := msg } }, state2)
      | none, some responseBlock1 =>
        match req.response with
        | none => some (.error .notHandled, req, state)
        | some rsp =>
          let msg := ((rsp.message.addOption 27
            (blockToBytes responseBlock1)).withCode
              (.response .requestEntityTooLarge))
          some (.ok true, { req with response := some { message := msg } },
            state)
      | _, _ => some (.ok false, req, state)

/-- `BlockHandler::maybe_handle_request_block2`. -/
def maybeHandleRequestBlock2 {E : Type} (req : CoapRequestM E)
    (state : BlockState) :
    Option (Except HandlingErr Bool × CoapRequestM E × BlockState) :=
  let maybeBlock2 := getFirstBlockOption req.message 23
  let state1 := { state with lastRequestBlock2 := maybeBlock2 }
  match maybeBlock2, state1.cachedResponse with
  | some block2, some cachedResponse =>
    match maybeServeCachedResponse req block2 cachedResponse with
    | none => none
    | some (.error e, req1) => some (.error e, req1, state1)
    | some (.ok hasMoreChunks, req1) =>
      some (.ok true, req1,
        if hasMoreChunks then state1
        else { state1 with cachedResponse := none })
  | _, _ => some (.ok false, req, state1)

/-- `BlockHandler::intercept_request`.  The `entry(..).or_insert(..)`
materialises the (possibly default) state for the request's cache key; on
every exit the mutated state is visible in the cache. -/
def interceptRequest {E : Type} [DecidableEq E] (h : BlockHandlerM E)
    (req : CoapRequestM E) :
    Option (Except HandlingErr Bool × CoapRequestM E × BlockHandlerM E) :=
  let key := requestCacheKey req
  let state0 := (lookupState h.states key).getD defaultBlockState
  match maybeHandleRequestBlock1 req h.maxTotalMessageSize state0 with
  | none => none
  | some (.error e, req1, st1) =>
    some (.error e, req1, { h with states := insertState h.states key st1 })
  | some (.ok true, req1, st1) =>
    some (.ok true, req1, { h with states := insertState h.states key st1 })
  | some (.ok false, req1, st1) =>
    match maybeHandleRequestBlock2 req1 st1 with
    | none => none
    | some (.error e, req2, st2) =>
      some (.error e, req2, { h with states := insertState h.states key st2 })
    | some (.ok handled, req2, st2) =>
      some (.ok handled, req2,
        { h with states := insertState h.states key st2 })

/-! ## Observation subject (`src/observe.rs`) -/

/-- `DEFAULT_UNACKNOWLEDGED_LIMIT`. -/
def defaultUnacknowledgedLimit : Nat := 10

/-- `Observer` from `src/observe.rs` (`unacknowledged_messages` is a
`u8`). -/
structure Observer (Endpoint : Type) where
  endpoint : Endpoint
  token : List Nat
  unacknowledgedMessages : Nat
  messageId : Option Nat
deriving DecidableEq

/-- `Resource` from `src/observe.rs` (`sequence` is a `u32`). -/
structure Resource (Endpoint : Type) where
  observers : List (Observer Endpoint)
  sequence : Nat
deriving DecidableEq

/-- `Subject` from `src/observe.rs`: `BTreeMap<String, Resource>` as an
association list keyed by the resource path. -/
structure Subject (Endpoint : Type) where
  resources : List (String × Resource Endpoint)
  unacknowledgedLimit : Nat
deriving DecidableEq

/-- `Subject::default()`. -/
def defaultSubject (Endpoint : Type) : Subject Endpoint :=
  { resources := [], unacknowledgedLimit := defaultUnacknowledgedLimit }

/-- The `and_modify` body of `Subject::resource_changed`: bump the
sequence (`u32` arithmetic), bump every observer's unacknowledged count
(`u8` arithmetic) and record the pending message id, then retain only the
observers whose pending id is set and whose count has not exceeded the
limit. -/
def resourceChangedModify {E : Type} (limit : Nat) (messageId : Nat)
    (r : Resource E) : Resource E :=
  let bumped := r.observers.map fun o =>
    { o with
      unacknowledgedMessages := (o.unacknowledgedMessages + 1) % 256,
      messageId := some messageId }
  { sequence := (r.sequence + 1) % 4294967296,
    observers := bumped.filter fun o =>
      o.messageId.isSome && o.unacknowledgedMessages ≤ limit }

/-- `Subject::resource_changed`: `entry(path).and_modify(..)` — modify the
resource if it exists, otherwise do nothing. -/
def resourceChanged {E : Type} (s : Subject E) (resource : String)
    (messageId : Nat) : Subject E :=
  { s with resources := s.resources.map fun pr =>
      if pr.1 = resource
      then (pr.1, resourceChangedModify s.unacknowledgedLimit messageId pr.2)
      else pr }

/-- `BTreeMap::get` on the resource map. -/
def getResourceAux {E : Type} :
    List (String × Resource E) → String → Option (Resource E)
  | [], _ => none
  | (p, r) :: rest, resource =>
    if p = resource then some r else getResourceAux rest resource

/-- `Subject::get_resource`. -/
def getResource {E : Type} (s : Subject E) (resource : String) :
    Option (Resource E) :=
  getResourceAux s.resources resource

/-- `Subject::get_resource_observers` (observer list by value). -/
def getResourceObservers {E : Type} (s : Subject E) (resource : String) :
    Option (List (Observer E)) :=
  (getResource s resource).map Resource.observers

/-- The observation fixture of the source's `ack_flow_forget_observer`
test: limit 5, one resource `"temp"` with a single freshly registered
observer. -/
def ageOutSubject : Subject String :=
  { resources := [("temp",
      { observers := [{ endpoint := "0.0.0.0", token := [0, 0],
                        unacknowledgedMessages := 0, messageId := none }],
        sequence := 0 })],
    unacknowledgedLimit := 5 }

/-- A concrete valid packet exercising the round-trip: a confirmable GET
with message id 0x849E, a one-byte token, a single Uri-Path option and a
one-byte payload. -/
def c1pkt : Packet :=
  { header := { verTypeTkl := 0x41, code := classOfByte 0x01,
                messageId := 0x849E },
    token := [0x51], options := [(11, [[0x74]])], payload := [0x61] }

/-- The wire encoding of `c1pkt`. -/
def c1buf : List Nat := [0x41, 0x01, 0x84, 0x9E, 0x51, 0xB1, 0x74, 0xFF, 0x61]

/-- A packet whose code is `Request(UnKnown)`: `From<MessageClass> for u8`
sends every unknown code to `0xFF`, which decodes to `Reserved`. -/
def c1badPkt : Packet :=
  { header := { verTypeTkl := 0x40,
                code := MessageClass.request RequestType.unKnown,
                messageId := 0 },
    token := [], options := [], payload := [] }

/-- The C6 witness scenario: a POST carrying Block1 `num 0, more, size 16`
(encoded `[8]`) with a three-byte body and a default response slot. -/
def c6rb : BlockValue := { num := 0, more := true, sizeExponent := 0 }

/-- The Block1 value negotiated for the response in the C6 scenario. -/
def c6respB : BlockValue := { num := 0, more := false, sizeExponent := 0 }

/-- The request of the C6 witness scenario. -/
def c6req : CoapRequestM Nat :=
  { message := { header := { verTypeTkl := 0x40, code := classOfByte 0x02,
                             messageId := 1 },
                 token := [], options := [(27, [[8]])], payload := [1, 2, 3] },
    response := some { message := defaultPacket },
    source := some 0 }

/-- The block handler of the C6 witness scenario: empty cache. -/
def c6handler : BlockHandlerM Nat :=
  { maxTotalMessageSize := 1280, states := [] }

/-- The cached response of the C8 witness scenario: content response,
message id 99, one-byte token, one ETag-like option, 40-byte payload. -/
def c8cached : Packet :=
  { header := { verTypeTkl := 0x41, code := classOfByte 0x45,
                messageId := 99 },
    token := [0xAA], options := [(4, [[7]])], payload := List.range 40 }

/-- The Block2 option of the C8 follow-up request: block 1, size 16. -/
def c8rb2 : BlockValue := { num := 1, more := false, sizeExponent := 0 }

/-- The response slot of the C8 follow-up request (message id 7, from the
current request). -/
def c8rsp : CoapResponseM :=
  { message := { header := { verTypeTkl := 0x40, code := classOfByte 0x45,
                             messageId := 7 },
                 token := [], options := [], payload := [] } }

/-- The C8 follow-up request carrying Block2 `[24]`. -/
def c8req : CoapRequestM Nat :=
  { message := { header := { verTypeTkl := 0x40, code := classOfByte 0x01,
                             messageId := 7 },
                 token := [], options := [(23, [[24]])], payload := [] },
    response := some c8rsp,
    source := some 0 }

/-- The result of `packet_clone_limited` in the C8 scenario: message id 7
kept from the current response, everything else from the cache. -/
def c8cloned : Packet :=
  { header := { verTypeTkl := 0x41, code := classOfByte 0x45, messageId := 7 },
    token := [0xAA], options := [(4, [[7]])], payload := [] }

/-- The served slice `[16, 32)` of the cached payload. -/
def c8chunk : List Nat := List.range' 16 16

/-- The chunks after the served one. -/
def c8restChunks : List (List Nat) := [List.range' 32 8]

/-! # Theorems

First the auxiliary lemmas about the embedded definitions, then one
theorem per claim (with its witness or counterexample). -/

/-! ## Auxiliary lemmas: minimal-length big-endian integers (claim C5) -/

theorem bigEndianMinimalAux_zero (fuel : Nat) : bigEndianMinimalAux fuel 0 = [] := by
  cases fuel <;> simp [bigEndianMinimalAux]

theorem bigEndianMinimalAux_fuel_irrel :
    ∀ fuel fuel' v, v ≤ fuel → v ≤ fuel' →
      bigEndianMinimalAux fuel v = bigEndianMinimalAux fuel' v := by
  intro fuel
  induction fuel with
  | zero =>
    intro fuel' v hv _
    interval_cases v
    simp [bigEndianMinimalAux, bigEndianMinimalAux_zero]
  | succ f ih =>
    intro fuel' v hv hv'
    rcases Nat.eq_zero_or_pos v with rfl | hvpos
    · simp [bigEndianMinimalAux_zero]
    · obtain ⟨f', rfl⟩ : ∃ f'', fuel' = f'' + 1 := ⟨fuel' - 1, by omega⟩
      have hne : v ≠ 0 := by omega
      have hdiv : v / 256 ≤ f := by
        have := Nat.div_lt_self hvpos (by omega : (1:Nat) < 256)
        omega
      have hdiv' : v / 256 ≤ f' := by
        have := Nat.div_lt_self hvpos (by omega : (1:Nat) < 256)
        omega
      simp only [bigEndianMinimalAux, if_neg hne]
      rw [ih f' (v / 256) hdiv hdiv']

/-- The recursion equation for `bigEndianMinimal`. -/
theorem bigEndianMinimal_eq (v : Nat) :
    bigEndianMinimal v =
      if v = 0 then [] else bigEndianMinimal (v / 256) ++ [v % 256] := by
  rcases Nat.eq_zero_or_pos v with rfl | hv
  · simp [bigEndianMinimal, bigEndianMinimalAux_zero]
  · have hne : v ≠ 0 := by omega
    obtain ⟨f, rfl⟩ : ∃ f, v = f + 1 := ⟨v - 1, by omega⟩
    simp only [bigEndianMinimal, bigEndianMinimalAux, if_neg hne]
    rw [bigEndianMinimalAux_fuel_irrel f ((f + 1) / 256) ((f + 1) / 256)
      (by have := Nat.div_lt_self hv (by omega : (1:Nat) < 256); omega)
      (le_refl _)]

theorem leBytesLoopAux_zero (fuel : Nat) : leBytesLoopAux fuel 0 = [] := by
  cases fuel <;> simp [leBytesLoopAux]

theorem leBytesLoopAux_fuel_irrel :
    ∀ fuel fuel' v, v ≤ fuel → v ≤ fuel' →
      leBytesLoopAux fuel v = leBytesLoopAux fuel' v := by
  intro fuel
  induction fuel with
  | zero =>
    intro fuel' v hv _
    interval_cases v
    simp [leBytesLoopAux, leBytesLoopAux_zero]
  | succ f ih =>
    intro fuel' v hv hv'
    rcases Nat.eq_zero_or_pos v with rfl | hvpos
    · simp [leBytesLoopAux_zero]
    · obtain ⟨f', rfl⟩ : ∃ f'', fuel' = f'' + 1 := ⟨fuel' - 1, by omega⟩
      have hne : v ≠ 0 := by omega
      have hshift : v >>> 8 = v / 256 := by
        simp [Nat.shiftRight_eq_div_pow]
      have hdiv : v / 256 ≤ f := by
        have := Nat.div_lt_self hvpos (by omega : (1:Nat) < 256)
        omega
      have hdiv' : v / 256 ≤ f' := by
        have := Nat.div_lt_self hvpos (by omega : (1:Nat) < 256)
        omega
      simp only [leBytesLoopAux, if_neg hne, hshift]
      rw [ih f' (v / 256) hdiv hdiv']

/-- The recursion equation for `leBytesLoop`. -/
theorem leBytesLoop_eq (v : Nat) :
    leBytesLoop v =
      if v = 0 then [] else v % 256 :: leBytesLoop (v / 256) := by
  rcases Nat.eq_zero_or_pos v with rfl | hv
  · simp [leBytesLoop, leBytesLoopAux_zero]
  · have hne : v ≠ 0 := by omega
    obtain ⟨f, rfl⟩ : ∃ f, v = f + 1 := ⟨v - 1, by omega⟩
    have hand : (f + 1) &&& 0xFF = (f + 1) % 256 := by
      have := Nat.and_pow_two_sub_one_eq_mod (f + 1) 8
      norm_num at this
      exact this
    have hshift : (f + 1) >>> 8 = (f + 1) / 256 := by
      simp [Nat.shiftRight_eq_div_pow]
    simp only [leBytesLoop, leBytesLoopAux, if_neg hne, hand, hshift]
    rw [leBytesLoopAux_fuel_irrel f ((f + 1) / 256) ((f + 1) / 256)
      (by have := Nat.div_lt_self hv (by omega : (1:Nat) < 256); omega)
      (le_refl _)]

/-- The reversed little-endian digit loop is the minimal big-endian
encoding. -/
theorem leBytesLoop_reverse (v : Nat) :
    (leBytesLoop v).reverse = bigEndianMinimal v := by
  induction v using Nat.strong_induction_on with
  | _ v ih =>
    rw [leBytesLoop_eq, bigEndianMinimal_eq]
    rcases Nat.eq_zero_or_pos v with rfl | hv
    · simp
    · have hne : v ≠ 0 := by omega
      simp only [if_neg hne, List.reverse_cons]
      rw [ih (v / 256) (Nat.div_lt_self hv (by omega))]

/-- `option_from_uint` computes the minimal big-endian encoding. -/
theorem optionFromUint_eq_bigEndianMinimal (v valueSize : Nat) :
    optionFromUint v valueSize = bigEndianMinimal v := by
  unfold optionFromUint
  rcases Nat.eq_zero_or_pos v with rfl | hv
  · simp [bigEndianMinimal, bigEndianMinimalAux_zero]
  · have hne : v ≠ 0 := by omega
    rw [if_neg hne]
    by_cases hsmall : v < 256
    · rw [if_pos hsmall, bigEndianMinimal_eq, if_neg hne,
        Nat.div_eq_of_lt hsmall, Nat.mod_eq_of_lt hsmall]
      simp [bigEndianMinimal, bigEndianMinimalAux_zero]
    · rw [if_neg hsmall]
      exact leBytesLoop_reverse v

theorem bigEndianMinimal_length_le :
    ∀ w v, v < 256 ^ w → (bigEndianMinimal v).length ≤ w := by
  intro w
  induction w with
  | zero =>
    intro v hv
    interval_cases v
    simp [bigEndianMinimal, bigEndianMinimalAux_zero]
  | succ w ih =>
    intro v hv
    rw [bigEndianMinimal_eq]
    rcases Nat.eq_zero_or_pos v with rfl | hvpos
    · simp
    · have hne : v ≠ 0 := by omega
      rw [if_neg hne]
      have hdiv : v / 256 < 256 ^ w := by
        rw [Nat.div_lt_iff_lt_mul (by omega : (0:Nat) < 256)]
        calc v < 256 ^ (w + 1) := hv
        _ = 256 ^ w * 256 := by ring
      have := ih (v / 256) hdiv
      simp only [List.length_append, List.length_cons, List.length_nil]
      omega

/-- Source's `assert!(output.len() < value_size)` never fires at any call
site: all callers pass a value below `256 ^ value_size`, and then the
output has at most `value_size` bytes (with the final byte pushed while
the length is still strictly below `value_size`). -/
theorem optionFromUint_length_le (v valueSize : Nat) (hv : v < 256 ^ valueSize) :
    (optionFromUint v valueSize).length ≤ valueSize := by
  rw [optionFromUint_eq_bigEndianMinimal]
  exact bigEndianMinimal_length_le valueSize v hv

theorem foldl_bigEndianMinimal (v : Nat) :
    ∀ acc, List.foldl (fun acc b => (acc <<< 8) + b) acc (bigEndianMinimal v)
      = acc * 256 ^ (bigEndianMinimal v).length + v := by
  induction v using Nat.strong_induction_on with
  | _ v ih =>
    intro acc
    rw [bigEndianMinimal_eq]
    rcases Nat.eq_zero_or_pos v with rfl | hv
    · simp
    · have hne : v ≠ 0 := by omega
      rw [if_neg hne]
      rw [List.foldl_append]
      rw [ih (v / 256) (Nat.div_lt_self hv (by omega)) acc]
      simp only [List.foldl_cons, List.foldl_nil, List.length_append,
        List.length_cons, List.length_nil]
      rw [Nat.shiftLeft_eq]
      have hv256 : v / 256 * 256 + v % 256 = v := by omega
      calc (acc * 256 ^ (bigEndianMinimal (v / 256)).length + v / 256) * 2 ^ 8
            + v % 256
          = acc * (256 ^ (bigEndianMinimal (v / 256)).length * 256)
            + (v / 256 * 256 + v % 256) := by ring
        _ = acc * 256 ^ ((bigEndianMinimal (v / 256)).length + 1) + v := by
            rw [hv256, pow_succ]

/-! ## Auxiliary lemmas: `largest_power_of_2_not_in_excess` (claim C3) -/

theorem find?_append_cases {α : Type} (p : α → Bool) :
    ∀ l₁ l₂ : List α, (l₁ ++ l₂).find? p =
      match l₁.find? p with
      | some a => some a
      | none => l₂.find? p := by
  intro l₁ l₂
  rw [List.find?_append]
  cases l₁.find? p <;> simp [Option.or]

theorem find?_range_of_min (t j n : Nat) (hj : j < n) (hpj : t < 1 <<< j)
    (hmin : ∀ i, i < j → 1 <<< i ≤ t) :
    (List.range n).find? (fun i => 1 <<< i > t) = some j := by
  induction n with
  | zero => omega
  | succ m ih =>
    rw [List.range_succ, find?_append_cases]
    rcases Nat.lt_or_ge j m with hjm | hjm
    · rw [ih hjm]
    · have hjeq : j = m := by omega
      subst hjeq
      have hnone : (List.range j).find? (fun i => 1 <<< i > t) = none := by
        rw [List.find?_eq_none]
        intro i hi
        simp only [List.mem_range] at hi
        simp only [decide_eq_true_eq, gt_iff_lt, not_lt]
        exact hmin i hi
      rw [hnone]
      simp [List.find?, hpj]

theorem shiftLeft_one (i : Nat) : 1 <<< i = 2 ^ i := by
  rw [Nat.shiftLeft_eq]; omega

/-- Characterisation of `largest_power_of_2_not_in_excess` below `2^63`:
it returns the floor base-2 logarithm. -/
theorem largestPowerOf2_of_lt (t : Nat) (ht : t ≠ 0) (hbound : t < 2 ^ 63) :
    largestPowerOf2NotInExcess t = some (Nat.log 2 t) := by
  unfold largestPowerOf2NotInExcess
  rw [if_neg ht]
  have hfind : (List.range 64).find? (fun i => 1 <<< i > t)
      = some (Nat.log 2 t + 1) := by
    apply find?_range_of_min
    · have : Nat.log 2 t < 63 := Nat.log_lt_of_lt_pow ht hbound
      omega
    · rw [shiftLeft_one]
      exact Nat.lt_pow_succ_log_self (by omega) t
    · intro i hi
      rw [shiftLeft_one]
      calc 2 ^ i ≤ 2 ^ Nat.log 2 t := Nat.pow_le_pow_right (by omega) (by omega)
      _ ≤ t := Nat.pow_log_le_self 2 ht
  rw [hfind]
  simp

/-- Characterisation of `largest_power_of_2_not_in_excess` at and above
`2^63`: the search fails and the function returns 64 (`usize::BITS`). -/
theorem largestPowerOf2_of_ge (t : Nat) (hbound : 2 ^ 63 ≤ t) :
    largestPowerOf2NotInExcess t = some 64 := by
  unfold largestPowerOf2NotInExcess
  rw [if_neg (by positivity : t ≠ 0)]
  have hfind : (List.range 64).find? (fun i => 1 <<< i > t) = none := by
    rw [List.find?_eq_none]
    intro i hi
    simp only [List.mem_range] at hi
    simp only [decide_eq_true_eq, gt_iff_lt, not_lt, shiftLeft_one]
    calc 2 ^ i ≤ 2 ^ 63 := Nat.pow_le_pow_right (by omega) (by omega)
    _ ≤ t := hbound
  rw [hfind]

/-- Full characterisation of `BlockValue::new`. -/
theorem blockNew_characterisation (num : Nat) (more : Bool) (size : Nat) :
    blockNew num more size =
      if size = 0 then .error (.sizeExponentEncodingError size)
      else if 4096 ≤ size then .error (.sizeExponentEncodingError size)
      else if 65535 < num then .error .typeBoundsError
      else .ok { num := num, more := more, sizeExponent := Nat.log 2 size - 4 } := by
  unfold blockNew
  rcases Nat.eq_zero_or_pos size with rfl | hpos
  · simp [largestPowerOf2NotInExcess]
  · have hne : size ≠ 0 := by omega
    rcases Nat.lt_or_ge size 4096 with hsmall | hbig
    · have hlog : Nat.log 2 size < 12 :=
        Nat.log_lt_of_lt_pow hne (by norm_num; omega)
      have h255 : ¬ (255 : Nat) < Nat.log 2 size - 4 := by omega
      have h7 : ¬ (0x7 : Nat) < Nat.log 2 size - 4 := by omega
      have h4096 : ¬ 4096 ≤ size := by omega
      simp only [largestPowerOf2_of_lt size hne (by omega), if_neg h255,
        if_neg h7, if_neg hne, if_neg h4096]
    · rcases Nat.lt_or_ge size (2 ^ 63) with hmid | htop
      · have hlog12 : 12 ≤ Nat.log 2 size := by
          have := (Nat.pow_le_iff_le_log (by omega : (1:Nat) < 2) hne).mp
            (by norm_num; omega : 2 ^ 12 ≤ size)
          omega
        have hlog63 : Nat.log 2 size < 63 := Nat.log_lt_of_lt_pow hne hmid
        have h255 : ¬ (255 : Nat) < Nat.log 2 size - 4 := by omega
        have h7 : (0x7 : Nat) < Nat.log 2 size - 4 := by omega
        simp only [largestPowerOf2_of_lt size hne (by omega), if_neg h255,
          if_pos h7, if_neg hne, if_pos hbig]
      · have h255 : ¬ (255 : Nat) < 64 - 4 := by omega
        have h7 : (0x7 : Nat) < 64 - 4 := by omega
        simp only [largestPowerOf2_of_ge size htop, if_neg h255, if_pos h7,
          if_neg hne, if_pos (show 4096 ≤ size by
            calc (4096 : Nat) ≤ 2 ^ 63 := by norm_num
            _ ≤ size := htop)]

/-! ## Claim C5: unsigned integer option encoding -/

/-- **C5** (confirmed).  For the unsigned integer option widths
`w ∈ {1, 2, 4, 8}`: encoding 0 yields the empty byte string; encoding a
non-zero value (of the width's range) yields its minimal-length
big-endian bytes; decoding accepts every byte string of length at most
`w` as a left-zero-padded big-endian integer, so that decoding an encoded
value is the identity; and decoding fails with
`IncompatibleOptionValueFormat` on every byte string longer than `w`. -/
theorem C5_uint_option_codec (w : Nat) (hw : w = 1 ∨ w = 2 ∨ w = 4 ∨ w = 8) :
    optionFromUint 0 w = [] ∧
    (∀ v, v ≠ 0 → v < 256 ^ w → optionFromUint v w = bigEndianMinimal v) ∧
    (∀ bs : List Nat, bs.length ≤ w →
      optionToUint bs w = .ok (bs.foldl (fun acc b => (acc <<< 8) + b) 0)) ∧
    (∀ v, v < 256 ^ w → optionToUint (optionFromUint v w) w = .ok v) ∧
    (∀ bs : List Nat, w < bs.length → optionToUint bs w = .error {}) := by
  clear hw
  refine ⟨rfl, ?_, ?_, ?_, ?_⟩
  · intro v _ _
    exact optionFromUint_eq_bigEndianMinimal v w
  · intro bs hlen
    unfold optionToUint
    rw [if_neg (by omega)]
  · intro v hv
    rw [optionFromUint_eq_bigEndianMinimal]
    unfold optionToUint
    rw [if_neg (by have := bigEndianMinimal_length_le w v hv; omega)]
    rw [foldl_bigEndianMinimal v 0]
    simp
  · intro bs hlen
    unfold optionToUint
    rw [if_pos (by omega)]

/-- Witness for C5 at `w = 2`, `v = 300`. -/
theorem C5_uint_option_codec_witness :
    optionFromUint 300 2 = bigEndianMinimal 300 ∧
    optionToUint (optionFromUint 300 2) 2 = .ok 300 ∧
    optionToUint [1, 2, 3] 2 = .error {} := by
  obtain ⟨-, h2, -, h4, h5⟩ := C5_uint_option_codec 2 (by omega)
  exact ⟨h2 300 (by omega) (by omega), h4 300 (by omega), h5 [1, 2, 3] (by decide)⟩

/-! ## Claim C2: Block value round-trip (code bug: `u16` truncation) -/

/-- **C2** (code_bug).  The constructor accepts every `num ≤ 65535`, but
the wire encoding assembles `num << 4 | more << 3 | size_exp` in `u16`
arithmetic, so the top four bits of `num` are discarded: at
`num = 4096, more = false, size = 16` the encoded option is the empty
byte string, and decoding it yields `(0, false, 0)`, not the original
triple.  (Decoding can never return any `num > 4095`, contradicting the
claimed round-trip over `num ∈ [0, 65535]`.) -/
theorem C2_block_roundtrip_truncation :
    blockNew 4096 false 16 =
      .ok { num := 4096, more := false, sizeExponent := 0 } ∧
    blockToBytes { num := 4096, more := false, sizeExponent := 0 } = [] ∧
    blockFromBytes (blockToBytes { num := 4096, more := false, sizeExponent := 0 })
      = .ok { num := 0, more := false, sizeExponent := 0 } ∧
    ({ num := 0, more := false, sizeExponent := 0 } : BlockValue)
      ≠ { num := 4096, more := false, sizeExponent := 0 } := by
  refine ⟨by decide, by decide, by decide, by decide⟩

/-! ## Claim C3: `BlockValue::new` acceptance (corrected) -/

/-- **C3 counterexample**.  The claim says `BlockValue::new` returns `Ok`
exactly when `size ∈ {16, 32, 64, 128, 256, 512, 1024}`; but the source
accepts `size = 1158` (its own unit test does exactly this), mapping it
to exponent 6. -/
theorem C3_counterexample :
    blockNew 0 false 1158 = .ok { num := 0, more := false, sizeExponent := 6 } ∧
    ¬ (1158 = 16 ∨ 1158 = 32 ∨ 1158 = 64 ∨ 1158 = 128 ∨ 1158 = 256 ∨
       1158 = 512 ∨ 1158 = 1024) := by
  refine ⟨by decide, by decide⟩

/-- **C3** (corrected).  `BlockValue::new(num, more, size)` returns `Ok`
exactly when `1 ≤ size ≤ 4095` and `num ≤ 65535` (the stored exponent is
`max(⌊log₂ size⌋, 4) - 4`); `size = 0` or `size ≥ 4096` fails with
`SizeExponentEncodingError`, and for an encodable size a `num > 65535`
fails with `TypeBoundsError`. -/
theorem C3_blockNew_acceptance (num : Nat) (more : Bool) (size : Nat) :
    ((blockNew num more size).isOk ↔
      (1 ≤ size ∧ size ≤ 4095 ∧ num ≤ 65535)) ∧
    (size = 0 ∨ 4096 ≤ size →
      blockNew num more size = .error (.sizeExponentEncodingError size)) ∧
    (1 ≤ size → size ≤ 4095 → 65535 < num →
      blockNew num more size = .error .typeBoundsError) ∧
    (1 ≤ size → size ≤ 4095 → num ≤ 65535 →
      blockNew num more size =
        .ok { num := num, more := more, sizeExponent := Nat.log 2 size - 4 }) := by
  rw [blockNew_characterisation]
  refine ⟨?_, ?_, ?_, ?_⟩
  · constructor
    · intro hok
      by_contra hcon
      push_neg at hcon
      rcases Nat.eq_zero_or_pos size with rfl | hpos
      · simp [Except.isOk, Except.toBool] at hok
      · rcases Nat.lt_or_ge size 4096 with hsmall | hbig
        · have hnum : 65535 < num := by omega
          rw [if_neg (by omega), if_neg (by omega), if_pos hnum] at hok
          simp [Except.isOk, Except.toBool] at hok
        · rw [if_neg (by omega), if_pos (by omega)] at hok
          simp [Except.isOk, Except.toBool] at hok
    · rintro ⟨h1, h2, h3⟩
      rw [if_neg (by omega), if_neg (by omega), if_neg (by omega)]
      simp [Except.isOk, Except.toBool]
  · intro h
    rcases h with h | h
    · rw [if_pos h]
    · rw [if_neg (by omega), if_pos h]
  · intro h1 h2 h3
    rw [if_neg (by omega), if_neg (by omega), if_pos h3]
  · intro h1 h2 h3
    rw [if_neg (by omega), if_neg (by omega), if_neg (by omega)]

/-- Witness for C3 at `(num, more, size) = (2, true, 100)` (accepted,
exponent `⌊log₂ 100⌋ - 4 = 2`), plus the two rejection regimes. -/
theorem C3_blockNew_acceptance_witness :
    blockNew 2 true 100 = .ok { num := 2, more := true, sizeExponent := 2 } ∧
    blockNew 2 true 4096 = .error (.sizeExponentEncodingError 4096) ∧
    blockNew 65536 true 100 = .error .typeBoundsError := by
  obtain ⟨-, hErr, hBounds, hOk⟩ := C3_blockNew_acceptance 2 true 100
  obtain ⟨-, hErr2, -, -⟩ := C3_blockNew_acceptance 2 true 4096
  obtain ⟨-, -, hBounds3, -⟩ := C3_blockNew_acceptance 65536 true 100
  refine ⟨?_, ?_, ?_⟩
  · have hthis := hOk (by omega) (by omega) (by omega)
    have hlog : Nat.log 2 100 = 6 :=
      Nat.log_eq_of_pow_le_of_lt_pow (by norm_num) (by norm_num)
    rw [hthis, hlog]
  · exact hErr2 (by omega)
  · exact hBounds3 (by omega) (by omega) (by omega)

/-! ## Claim C7: reassembly buffer growth cap (DoS resistance) -/

/-- **C7** (confirmed).  `extending_splice` refuses any write whose
required extension beyond the current buffer length exceeds
`MAXIMUM_UNCOMMITTED_BUFFER_RESERVE_LENGTH` (16 KiB); in particular a
Block1 write at offset `num * size` exceeding the current length by more
than 16 KiB fails instead of allocating the claimed range. -/
theorem C7_reassembly_growth_cap (dst : List Nat) (startIdx stopIdx : Nat)
    (replaceWith : List Nat) :
    (dst.length + maximumUncommittedBufferReserveLength < stopIdx →
      extendingSplice dst startIdx stopIdx replaceWith
        maximumUncommittedBufferReserveLength
        = .error "extend_len exceeds maximum_extend_len") ∧
    (∀ num size : Nat,
      dst.length + maximumUncommittedBufferReserveLength < num * size →
      extendingSplice dst (num * size) (num * size + size) replaceWith
        maximumUncommittedBufferReserveLength
        = .error "extend_len exceeds maximum_extend_len") := by
  have key : ∀ stop : Nat,
      dst.length + maximumUncommittedBufferReserveLength < stop →
      extendingSplice dst startIdx stop replaceWith
        maximumUncommittedBufferReserveLength
        = .error "extend_len exceeds maximum_extend_len" := by
    intro stop hstop
    unfold extendingSplice
    rw [if_pos (by unfold maximumUncommittedBufferReserveLength at hstop; omega),
      if_pos (by unfold maximumUncommittedBufferReserveLength at hstop ⊢; omega)]
  refine ⟨key stopIdx, ?_⟩
  intro num size hoff
  have key2 : ∀ start stop : Nat,
      dst.length + maximumUncommittedBufferReserveLength < stop →
      extendingSplice dst start stop replaceWith
        maximumUncommittedBufferReserveLength
        = .error "extend_len exceeds maximum_extend_len" := by
    intro start stop hstop
    unfold extendingSplice
    rw [if_pos (by unfold maximumUncommittedBufferReserveLength at hstop; omega),
      if_pos (by unfold maximumUncommittedBufferReserveLength at hstop ⊢; omega)]
  exact key2 (num * size) (num * size + size) (by omega)

/-- Witness for C7: a buffer of length 0 and a write claiming offset
`2 * 16384` (block num 2048 at size 16). -/
theorem C7_reassembly_growth_cap_witness :
    extendingSplice [] (2048 * 16) (2048 * 16 + 16) [7]
      maximumUncommittedBufferReserveLength
      = .error "extend_len exceeds maximum_extend_len" :=
  (C7_reassembly_growth_cap [] 0 0 [7]).2 2048 16 (by decide)

/-! ## Claim C10: `set_token` bounds (corrected) -/

set_option maxRecDepth 40000 in
theorem and15_or_and240 :
    ∀ x < 256, ∀ tk < 16, 0x0F &&& (tk ||| (0xF0 &&& x)) = tk := by decide

set_option maxRecDepth 40000 in
theorem and240_eq_zero_iff : ∀ tk < 256, (0xF0 &&& tk = 0 ↔ tk < 16) := by decide

/-- Shape of a successful `to_bytes_internal` encoding. -/
theorem toBytesInternal_ok (p : Packet) (limit : Option Nat) (buf : List Nat)
    (h : toBytesInternal p limit = .ok buf) :
    buf = headerSerialize p.header ++ p.token ++ encodeOptionsList 0 p.options
      ++ (if p.header.code ≠ MessageClass.empty ∧ p.payload ≠ [] then
          255 :: p.payload else []) := by
  unfold toBytesInternal at h
  rcases Classical.em (p.header.code ≠ MessageClass.empty ∧ p.payload ≠ [])
    with hm | hm
  · simp only [if_pos hm] at h ⊢
    split at h
    · cases h
    · injection h with h
      exact h.symm
  · simp only [if_neg hm] at h ⊢
    split at h
    · cases h
    · injection h with h
      exact h.symm

/-- The size bound enforced by a successful `to_bytes_internal` with a
limit: the computed `buf_length` does not exceed the limit. -/
theorem toBytesInternal_ok_le (p : Packet) (lim : Nat) (buf : List Nat)
    (h : toBytesInternal p (some lim) = .ok buf) :
    4 + p.payload.length + p.token.length
      + (if p.header.code ≠ MessageClass.empty ∧ p.payload ≠ [] then 1 else 0)
      + (encodeOptionsList 0 p.options).length ≤ lim := by
  unfold toBytesInternal at h
  rcases Classical.em (p.header.code ≠ MessageClass.empty ∧ p.payload ≠ [])
    with hm | hm
  · simp only [if_pos hm] at h ⊢
    split at h
    · cases h
    · next hcond =>
      simp only [Option.isSome_some, Option.getD_some, true_and, not_lt]
        at hcond
      omega
  · simp only [if_neg hm] at h ⊢
    split at h
    · cases h
    · next hcond =>
      simp only [Option.isSome_some, Option.getD_some, true_and, not_lt]
        at hcond
      omega

set_option maxRecDepth 40000 in
/-- **C10 counterexample**.  The claim says `set_token` panics on every
token longer than 15 bytes; but the token length is cast to `u8` before
the 4-bit assertion, so a 256-byte token passes the assert (its length
truncates to 0) and sets the header token-length field to 0. -/
theorem C10_counterexample :
    15 < (List.replicate 256 0 : List Nat).length ∧
    (defaultPacket.setToken (List.replicate 256 0)).isSome = true ∧
    (defaultPacket.setToken (List.replicate 256 0)).map
      (fun p' => p'.header.getTokenLength) = some 0 := by
  refine ⟨by decide, by decide, by decide⟩

/-- **C10** (corrected).  `set_token` keeps the header/token-length
invariant only for small tokens and never enforces the CoAP bound of 8:
for `9 ≤ len(t) ≤ 15` it succeeds, sets the token-length field to
`len(t)`, and produces a packet whose encoding the decoder rejects with
`InvalidTokenLength`; and the call panics exactly when `len(t) mod 256`
has a nonzero high nibble (the length is cast to `u8` before the 4-bit
assert — so e.g. a 256-byte token does *not* panic). -/
theorem C10_setToken_amended (p : Packet) (t : List Nat)
    (hvtt : p.header.verTypeTkl < 256) :
    (9 ≤ t.length → t.length ≤ 15 →
      ∃ p', p.setToken t = some p' ∧
        p'.header.getTokenLength = t.length ∧
        ∀ buf, toBytes p' = .ok buf →
          fromBytes buf = .error .invalidTokenLength) ∧
    (p.setToken t = none ↔ 16 ≤ t.length % 256) := by
  constructor
  · intro h9 h15
    have hmod : t.length % 256 = t.length := Nat.mod_eq_of_lt (by omega)
    have hguard : 0xF0 &&& t.length % 256 = 0 := by
      rw [hmod]
      exact (and240_eq_zero_iff t.length (by omega)).mpr (by omega)
    refine ⟨{ p with
        header := { p.header with
          verTypeTkl := t.length % 256 ||| (0xF0 &&& p.header.verTypeTkl) },
        token := t }, ?_, ?_, ?_⟩
    · unfold Packet.setToken Header.setTokenLength
      rw [if_pos hguard]
      rfl
    · show 0x0F &&& (t.length % 256 ||| (0xF0 &&& p.header.verTypeTkl))
        = t.length
      rw [hmod]
      exact and15_or_and240 p.header.verTypeTkl hvtt t.length (by omega)
    · intro buf henc
      have htkl : 0x0F &&& (t.length % 256 ||| (0xF0 &&& p.header.verTypeTkl))
          = t.length := by
        rw [hmod]
        exact and15_or_and240 p.header.verTypeTkl hvtt t.length (by omega)
      unfold toBytes at henc
      have hshape := toBytesInternal_ok _ _ _ henc
      rw [hshape]
      unfold headerSerialize fromBytes
      simp only [List.cons_append, List.nil_append]
      rw [htkl, if_pos (by omega)]
  · unfold Packet.setToken Header.setTokenLength
    constructor
    · intro hnone
      by_contra hcon
      push_neg at hcon
      rw [if_pos ((and240_eq_zero_iff (t.length % 256)
        (Nat.mod_lt _ (by omega))).mpr (by omega))] at hnone
      simp at hnone
    · intro h16
      rw [if_neg (fun hz => by
        have := (and240_eq_zero_iff (t.length % 256)
          (Nat.mod_lt _ (by omega))).mp hz
        omega)]
      rfl

/-- Witness for C10: an 11-byte token on the default packet. -/
theorem C10_setToken_amended_witness :
    (defaultPacket.setToken (List.replicate 11 1)).map
      (fun p' => p'.header.getTokenLength) = some 11 ∧
    (defaultPacket.setToken (List.replicate 20 1) = none) := by
  obtain ⟨h1, -⟩ := C10_setToken_amended defaultPacket (List.replicate 11 1)
    (by decide)
  obtain ⟨-, h2⟩ := C10_setToken_amended defaultPacket (List.replicate 20 1)
    (by decide)
  obtain ⟨p', hp', htkl, -⟩ := h1 (by decide) (by decide)
  constructor
  · rw [hp']
    simp only [Option.map_some']
    rw [htkl]
    decide
  · exact h2.mpr (by decide)

/-! ## Claim C9: `resource_changed` (observation subject) -/

theorem getResourceAux_map_modify {E : Type} (path : String)
    (modify : Resource E → Resource E) :
    ∀ l : List (String × Resource E),
      getResourceAux (l.map fun pr =>
        if pr.1 = path then (pr.1, modify pr.2) else pr) path
      = (getResourceAux l path).map modify := by
  intro l
  induction l with
  | nil => simp [getResourceAux]
  | cons hd tl ih =>
    obtain ⟨p, r⟩ := hd
    simp only [List.map_cons]
    by_cases hp : p = path
    · rw [if_pos hp]
      subst hp
      simp [getResourceAux, ih]
    · rw [if_neg hp]
      simp [getResourceAux, hp, ih]

theorem filter_map_bumped {E : Type} (limit mid : Nat) :
    ∀ l : List (Observer E),
      ((l.map fun o =>
          ({ o with
            unacknowledgedMessages := (o.unacknowledgedMessages + 1) % 256,
            messageId := some mid } : Observer E)).filter fun o =>
        o.messageId.isSome && o.unacknowledgedMessages ≤ limit)
      = (l.filter fun o =>
          (o.unacknowledgedMessages + 1) % 256 ≤ limit).map fun o =>
        { o with
          unacknowledgedMessages := (o.unacknowledgedMessages + 1) % 256,
          messageId := some mid } := by
  intro l
  induction l with
  | nil => simp
  | cons hd tl ih =>
    simp only [List.map_cons, List.filter_cons]
    by_cases hcond : (hd.unacknowledgedMessages + 1) % 256 ≤ limit
    · rw [if_pos (by simp [hcond]), if_pos (by simp [hcond])]
      simp only [List.map_cons]
      rw [ih]
    · rw [if_neg (by simp [hcond]), if_neg (by simp [hcond])]
      exact ih

/-- **C9** (confirmed).  `resource_changed` on an existing resource
increments the resource's sequence by one (`u32` arithmetic), gives every
observer an unacknowledged-count one higher (`u8` arithmetic) while
recording the pending message id, and removes exactly the observers whose
new count exceeds the configured limit.  The default limit is 10, and (in
the shape of the source's own test) with the limit set to 5 an observer
registered at count 0 survives five consecutive `resource_changed` calls
and is removed by the sixth. -/
theorem C9_resource_changed {E : Type} (s : Subject E) (path : String)
    (mid : Nat) (r : Resource E) (hres : getResource s path = some r) :
    getResource (resourceChanged s path mid) path = some
      { sequence := (r.sequence + 1) % 4294967296,
        observers := (r.observers.filter fun o =>
            (o.unacknowledgedMessages + 1) % 256 ≤ s.unacknowledgedLimit).map
          fun o =>
            { o with
              unacknowledgedMessages := (o.unacknowledgedMessages + 1) % 256,
              messageId := some mid } } ∧
    (defaultSubject E).unacknowledgedLimit = 10 ∧
    (getResourceObservers
      (resourceChanged (resourceChanged (resourceChanged (resourceChanged
        (resourceChanged (resourceChanged ageOutSubject "temp" 1)
          "temp" 2) "temp" 3) "temp" 4) "temp" 5) "temp" 6) "temp"
      = some []) ∧
    (getResourceObservers
      (resourceChanged (resourceChanged (resourceChanged (resourceChanged
        (resourceChanged ageOutSubject "temp" 1)
          "temp" 2) "temp" 3) "temp" 4) "temp" 5) "temp"
      = some [{ endpoint := "0.0.0.0", token := [0, 0],
                unacknowledgedMessages := 5, messageId := some 5 }]) := by
  refine ⟨?_, rfl, by decide, by decide⟩
  unfold getResource resourceChanged at *
  rw [getResourceAux_map_modify path
    (resourceChangedModify s.unacknowledgedLimit mid) s.resources, hres]
  simp only [Option.map_some']
  unfold resourceChangedModify
  simp only [filter_map_bumped s.unacknowledgedLimit mid r.observers]

/-! ## Claim C4: option number overflow during decoding (corrected) -/

/-- Unfolding equation of `fromBytes` on a buffer of at least 4 bytes. -/
theorem fromBytes_cons (b0 b1 b2 b3 : Nat) (rest : List Nat) :
    fromBytes (b0 :: b1 :: b2 :: b3 :: rest) =
      (if 8 < 0x0F &&& b0 then .error .invalidTokenLength
       else if rest.length < 0x0F &&& b0 then .error .invalidTokenLength
       else
         match decodeOptionsLoop (rest.drop (0x0F &&& b0)).length
             (rest.drop (0x0F &&& b0)) 0 [] with
         | .error e => .error e
         | .ok (options, payload) =>
           .ok { header := { verTypeTkl := b0, code := classOfByte b1,
                             messageId := b2 * 256 + b3 },
                 token := rest.take (0x0F &&& b0), options := options,
                 payload := payload }) := rfl

theorem parseLength_13 (x : Nat) (r : List Nat) :
    parseLength 13 (x :: r) = .ok (x + 13, r) := rfl

theorem parseLength_13_nil : parseLength 13 [] = .error .invalidOptionLength := rfl

theorem parseLength_14 (x y : Nat) (r : List Nat) :
    parseLength 14 (x :: y :: r) =
      if x * 256 + y + 269 <= 65535 then .ok (x * 256 + y + 269, r)
      else .error .invalidOptionLength := rfl

theorem parseLength_14_nil : parseLength 14 [] = .error .invalidOptionLength := rfl

theorem parseLength_14_one (x : Nat) :
    parseLength 14 [x] = .error .invalidOptionLength := rfl

theorem parseLength_15 (buf : List Nat) :
    parseLength 15 buf = .error .invalidOptionLength := rfl

theorem parseLength_small (nib : Nat) (h13 : nib ≠ 13) (h14 : nib ≠ 14)
    (h15 : nib ≠ 15) (buf : List Nat) : parseLength nib buf = .ok (nib, buf) := by
  unfold parseLength
  rw [if_neg h13, if_neg h14, if_neg h15]

/-- A successful length parse leaves a suffix of the input. -/
theorem parseLength_ok_suffix (nib : Nat) (buf : List Nat) (l : Nat)
    (r : List Nat) (h : parseLength nib buf = .ok (l, r)) : r <:+ buf := by
  by_cases h13 : nib = 13
  · subst h13
    match buf with
    | [] => rw [parseLength_13_nil] at h; cases h
    | x :: r' =>
      rw [parseLength_13] at h
      injection h with h
      injection h with h1 h2
      subst h2
      exact List.suffix_cons x r'
  · by_cases h14 : nib = 14
    · subst h14
      match buf with
      | [] => rw [parseLength_14_nil] at h; cases h
      | [x] => rw [parseLength_14_one] at h; cases h
      | x :: y :: r' =>
        rw [parseLength_14] at h
        split at h
        · injection h with h
          injection h with h1 h2
          subst h2
          exact (List.suffix_cons y r').trans (List.suffix_cons x (y :: r'))
        · cases h
    · by_cases h15 : nib = 15
      · subst h15
        rw [parseLength_15] at h
        cases h
      · rw [parseLength_small nib h13 h14 h15] at h
        injection h with h
        injection h with h1 h2
        subst h2
        exact List.suffix_refl buf

theorem parseLength_ok_length (nib : Nat) (buf : List Nat) (l : Nat)
    (r : List Nat) (h : parseLength nib buf = .ok (l, r)) :
    r.length ≤ buf.length :=
  (parseLength_ok_suffix nib buf l r h).length_le

/-- Every `parseLength` failure is `InvalidOptionLength`. -/
theorem parseLength_error (nib : Nat) (buf : List Nat) (e : MessageError)
    (h : parseLength nib buf = .error e) : e = .invalidOptionLength := by
  by_cases h13 : nib = 13
  · subst h13
    match buf with
    | [] =>
      rw [parseLength_13_nil] at h
      injection h with h
      exact h.symm
    | x :: r' =>
      rw [parseLength_13] at h
      cases h
  · by_cases h14 : nib = 14
    · subst h14
      match buf with
      | [] =>
        rw [parseLength_14_nil] at h
        injection h with h
        exact h.symm
      | [x] =>
        rw [parseLength_14_one] at h
        injection h with h
        exact h.symm
      | x :: y :: r' =>
        rw [parseLength_14] at h
        split at h
        · cases h
        · injection h with h
          exact h.symm
    · by_cases h15 : nib = 15
      · subst h15
        rw [parseLength_15] at h
        injection h with h
        exact h.symm
      · rw [parseLength_small nib h13 h14 h15] at h
        cases h

theorem parseDelta_13 (x : Nat) (r : List Nat) :
    parseDelta 13 (x :: r) = .ok (x + 13, r) := rfl

theorem parseDelta_14 (x y : Nat) (r : List Nat) :
    parseDelta 14 (x :: y :: r) =
      if x * 256 + y + 269 <= 65535 then .ok (x * 256 + y + 269, r)
      else .error .invalidOptionDelta := rfl

theorem parseDelta_small_ok (nib : Nat) (h13 : nib ≠ 13) (h14 : nib ≠ 14)
    (h15 : nib ≠ 15) (buf : List Nat) : parseDelta nib buf = .ok (nib, buf) := by
  unfold parseDelta
  rw [if_neg h13, if_neg h14, if_neg h15]

theorem observeDelta_13 (x : Nat) (r : List Nat) :
    observeDelta 13 (x :: r) = some (x + 13, r) := rfl

theorem observeDelta_13_nil : observeDelta 13 [] = none := rfl

theorem observeDelta_14 (x y : Nat) (r : List Nat) :
    observeDelta 14 (x :: y :: r) = some (x * 256 + y + 269, r) := rfl

theorem observeDelta_14_nil : observeDelta 14 [] = none := rfl

theorem observeDelta_14_one (x : Nat) : observeDelta 14 [x] = none := rfl

theorem observeDelta_15 (buf : List Nat) : observeDelta 15 buf = none := rfl

theorem observeDelta_small (nib : Nat) (h13 : nib ≠ 13) (h14 : nib ≠ 14)
    (h15 : nib ≠ 15) (buf : List Nat) : observeDelta nib buf = some (nib, buf) := by
  unfold observeDelta
  rw [if_neg h13, if_neg h14, if_neg h15]

/-- Bridge between the full-precision delta observation and the
decoder's capped `parseDelta`, for byte-valued input (entry byte < 256,
so the nibble is at most 15, and the one-byte extension delta is below
269). -/
theorem observeDelta_some (nib : Nat) (buf : List Nat) (d : Nat)
    (r : List Nat) (hnib : nib ≤ 15) (hb : ∀ x ∈ buf, x < 256)
    (h : observeDelta nib buf = some (d, r)) :
    (d ≤ 65535 → parseDelta nib buf = .ok (d, r)) ∧
    (65535 < d → parseDelta nib buf = .error .invalidOptionDelta) ∧
    r <:+ buf := by
  by_cases h13 : nib = 13
  · subst h13
    match buf with
    | [] => rw [observeDelta_13_nil] at h; cases h
    | x :: r' =>
      rw [observeDelta_13] at h
      injection h with h
      injection h with h1 h2
      subst h1; subst h2
      have hx : x < 256 := hb x (by simp)
      exact ⟨fun _ => parseDelta_13 x r', fun hbig => absurd hbig (by omega),
        List.suffix_cons x r'⟩
  · by_cases h14 : nib = 14
    · subst h14
      match buf with
      | [] => rw [observeDelta_14_nil] at h; cases h
      | [x] => rw [observeDelta_14_one] at h; cases h
      | x :: y :: r' =>
        rw [observeDelta_14] at h
        injection h with h
        injection h with h1 h2
        subst h1; subst h2
        refine ⟨fun hle => ?_, fun hbig => ?_, ?_⟩
        · rw [parseDelta_14, if_pos hle]
        · rw [parseDelta_14, if_neg (by omega)]
        · exact (List.suffix_cons y r').trans (List.suffix_cons x (y :: r'))
    · by_cases h15 : nib = 15
      · subst h15
        rw [observeDelta_15] at h
        cases h
      · rw [observeDelta_small nib h13 h14 h15] at h
        injection h with h
        injection h with h1 h2
        subst h1; subst h2
        refine ⟨fun _ => parseDelta_small_ok nib h13 h14 h15 buf,
          fun hbig => absurd hbig (by omega), List.suffix_refl buf⟩

/-- If the running sum of observed deltas would exceed 65535 at some
option entry of a byte-valued stream, the decoder fails with exactly the
error predicted by `sumOverflowError`. -/
theorem sumOverflow_decode :
    ∀ fuel buf running acc e, buf.length ≤ fuel →
      (∀ x ∈ buf, x < 256) →
      sumOverflowError fuel buf running = some e →
      decodeOptionsLoop fuel buf running acc = .error e := by
  intro fuel
  induction fuel with
  | zero =>
    intro buf running acc e hlen hbytes hovf
    match buf, hlen with
    | [], _ => cases hovf
  | succ f ih =>
    intro buf running acc e hlen hbytes hovf
    match buf with
    | [] => cases hovf
    | b :: rest =>
      have hbbyte : b < 256 := hbytes b (by simp)
      have hnib : b >>> 4 ≤ 15 := by
        rw [Nat.shiftRight_eq_div_pow]
        omega
      have hrestbytes : ∀ x ∈ rest, x < 256 := fun x hx =>
        hbytes x (by simp [hx])
      unfold sumOverflowError at hovf
      unfold decodeOptionsLoop
      by_cases hb : b = 255
      · rw [if_pos hb] at hovf; cases hovf
      · rw [if_neg hb] at hovf
        rw [if_neg hb]
        rcases hobs : observeDelta (b >>> 4) rest with - | ⟨delta, r1⟩
        · simp [hobs] at hovf
        · simp only [hobs] at hovf
          obtain ⟨hok, herr, hsuf1⟩ :=
            observeDelta_some _ _ _ _ hnib hrestbytes hobs
          by_cases hover : 65535 < running + delta
          · rw [if_pos hover] at hovf
            by_cases hbig : 65535 < delta
            · rw [if_pos hbig] at hovf
              injection hovf with hovf
              simp only [herr hbig]
              rw [← hovf]
            · rw [if_neg hbig] at hovf
              simp only [hok (by omega : delta ≤ 65535)]
              rcases hpl : parseLength (b &&& 0xF) r1 with e1 | ⟨len, r2⟩
              · simp only [hpl] at hovf
                injection hovf with hovf
                simp only [hpl, ← hovf]
              · simp only [hpl] at hovf
                injection hovf with hovf
                simp only [hpl]
                rw [if_pos hover, ← hovf]
          · rw [if_neg hover] at hovf
            simp only [hok (by omega : delta ≤ 65535)]
            rcases hpl : parseLength (b &&& 0xF) r1 with e1 | ⟨len, r2⟩
            · simp [hpl] at hovf
            · simp only [hpl] at hovf
              simp only [hpl]
              rw [if_neg hover]
              by_cases hlen2 : r2.length < len
              · rw [if_pos hlen2] at hovf; cases hovf
              · rw [if_neg hlen2] at hovf
                rw [if_neg hlen2]
                have hsuf2 := parseLength_ok_suffix _ _ _ _ hpl
                apply ih
                · have h1 : (r2.drop len).length ≤ r2.length := by simp
                  have h2 := hsuf2.length_le
                  have h3 := hsuf1.length_le
                  simp only [List.length_cons] at hlen
                  omega
                · intro x hx
                  exact hrestbytes x
                    (hsuf1.subset (hsuf2.subset ((List.drop_suffix len r2).subset hx)))
                · exact hovf

/-- `sumOverflowError` only predicts the two option errors. -/
theorem sumOverflow_cases :
    ∀ fuel buf running e, sumOverflowError fuel buf running = some e →
      e = .invalidOptionDelta ∨ e = .invalidOptionLength := by
  intro fuel
  induction fuel with
  | zero =>
    intro buf running e hovf
    match buf with
    | [] => cases hovf
    | _ :: _ => cases hovf
  | succ f ih =>
    intro buf running e hovf
    match buf with
    | [] => cases hovf
    | b :: rest =>
      unfold sumOverflowError at hovf
      by_cases hb : b = 255
      · rw [if_pos hb] at hovf; cases hovf
      · rw [if_neg hb] at hovf
        rcases hobs : observeDelta (b >>> 4) rest with - | ⟨delta, r1⟩
        · simp [hobs] at hovf
        · simp only [hobs] at hovf
          by_cases hover : 65535 < running + delta
          · rw [if_pos hover] at hovf
            by_cases hbig : 65535 < delta
            · rw [if_pos hbig] at hovf
              injection hovf with hovf
              exact Or.inl hovf.symm
            · rw [if_neg hbig] at hovf
              rcases hpl : parseLength (b &&& 0xF) r1 with e1 | ⟨len, r2⟩
              · simp only [hpl] at hovf
                injection hovf with hovf
                exact Or.inr (hovf ▸ parseLength_error _ _ _ hpl)
              · simp only [hpl] at hovf
                injection hovf with hovf
                exact Or.inl hovf.symm
          · rw [if_neg hover] at hovf
            rcases hpl : parseLength (b &&& 0xF) r1 with e1 | ⟨len, r2⟩
            · simp [hpl] at hovf
            · simp only [hpl] at hovf
              by_cases hlen2 : r2.length < len
              · rw [if_pos hlen2] at hovf; cases hovf
              · rw [if_neg hlen2] at hovf
                exact ih _ _ _ hovf

/-- **C4 counterexample**.  On the input below, the observed deltas are
1 and then 65535 (2-byte extended form), so the running option number
would exceed 65535 at the second entry; but that entry's length nibble is
15, and since the length field is processed before the overflow check,
`from_bytes` returns `InvalidOptionLength`, not the claimed
`InvalidOptionDelta`. -/
theorem C4_counterexample :
    fromBytes [0x40, 0x01, 0x00, 0x00, 0x10, 0xEF, 0xFE, 0xF2]
      = .error .invalidOptionLength ∧
    (MessageError.invalidOptionLength ≠ MessageError.invalidOptionDelta) ∧
    1 + (0xFE * 256 + 0xF2 + 269) > 65535 := by
  refine ⟨by decide, by decide, by decide⟩

/-- **C4** (corrected).  The decoder's running option number is the sum
of the observed deltas, and on every (byte-valued) input in which that
sum would exceed 65535 at some option entry, `Packet::from_bytes`
returns an error rather than any packet: `InvalidOptionDelta`, except
that when the overflowing entry's own length field is malformed (escape
nibble 15, or missing extension bytes) the length field — processed
before the number-overflow check — yields `InvalidOptionLength`.
`sumOverflowError` encodes exactly this error selection. -/
theorem C4_delta_overflow_amended (buf : List Nat) (b0 b1 b2 b3 : Nat)
    (rest : List Nat) (e : MessageError)
    (hbuf : buf = b0 :: b1 :: b2 :: b3 :: rest)
    (hbytes : ∀ x ∈ rest, x < 256)
    (htkl8 : 0x0F &&& b0 ≤ 8)
    (htkllen : 0x0F &&& b0 ≤ rest.length)
    (hovf : sumOverflowError (rest.drop (0x0F &&& b0)).length
      (rest.drop (0x0F &&& b0)) 0 = some e) :
    fromBytes buf = .error e ∧
    (e = .invalidOptionDelta ∨ e = .invalidOptionLength) := by
  subst hbuf
  constructor
  · rw [fromBytes_cons]
    rw [if_neg (by omega : ¬ 8 < 0x0F &&& b0),
      if_neg (by omega : ¬ rest.length < 0x0F &&& b0)]
    rw [sumOverflow_decode (rest.drop (0x0F &&& b0)).length
      (rest.drop (0x0F &&& b0)) 0 [] e (le_refl _)
      (fun x hx => hbytes x ((List.drop_suffix _ _).subset hx)) hovf]
  · exact sumOverflow_cases _ _ _ _ hovf

/-- Witness for C4: the source's own `reject_excessive_option_number`
regression input, where the sum 65535 + 1 overflows at a well-formed
second entry and the decoder answers `InvalidOptionDelta`. -/
theorem C4_delta_overflow_amended_witness :
    fromBytes [0x40, 0x01, 0x00, 0x00, 0xE0, 0xFE, 0xF2, 0x10]
      = .error .invalidOptionDelta :=
  (C4_delta_overflow_amended _ 0x40 0x01 0x00 0x00 [0xE0, 0xFE, 0xF2, 0x10]
    .invalidOptionDelta rfl (by decide) (by decide) (by decide) (by decide)).1

/-- Witness for C9: the first `resource_changed` on the age-out
fixture. -/
theorem C9_resource_changed_witness :
    getResource (resourceChanged ageOutSubject "temp" 1) "temp" = some
      { sequence := 1,
        observers := [{ endpoint := "0.0.0.0", token := [0, 0],
                        unacknowledgedMessages := 1, messageId := some 1 }] } := by
  have h := (C9_resource_changed ageOutSubject "temp" 1
    { observers := [{ endpoint := "0.0.0.0", token := [0, 0],
                      unacknowledgedMessages := 0, messageId := none }],
      sequence := 0 } (by decide)).1
  rw [h]
  decide

/-! ## Auxiliary lemmas: option wire codec round-trip (claim C1) -/

set_option maxRecDepth 100000 in
theorem nibbleByte_facts :
    ∀ x < 15, ∀ y < 15, ((x <<< 4) ||| y) >>> 4 = x ∧
      ((x <<< 4) ||| y) &&& 0xF = y ∧ ((x <<< 4) ||| y) ≠ 255 := by decide

theorem extNibble_le (n : Nat) : extNibble n ≤ 14 := by
  unfold extNibble
  split
  · omega
  · split <;> omega

theorem decodeOptionsLoop_nil (fuel running : Nat) (acc : OptMap) :
    decodeOptionsLoop fuel [] running acc = .ok (acc, []) := by
  cases fuel <;> rfl

theorem decodeOptionsLoop_marker (fuel running : Nat) (acc : OptMap)
    (payload : List Nat) :
    decodeOptionsLoop (fuel + 1) (255 :: payload) running acc
      = .ok (acc, payload) := rfl

/-- `parseDelta` inverts the delta nibble/extension encoding. -/
theorem parseDelta_deltaExt (delta : Nat) (hd : delta ≤ 65535)
    (tail : List Nat) :
    parseDelta (extNibble delta) (deltaExtBytes delta ++ tail)
      = .ok (delta, tail) := by
  unfold extNibble deltaExtBytes
  rcases Nat.lt_or_ge delta 13 with h12 | h13
  · have h1 : delta ≤ 12 := by omega
    simp only [if_pos h1, List.nil_append]
    exact parseDelta_small_ok delta (by omega) (by omega) (by omega) tail
  · have h1 : ¬ delta ≤ 12 := by omega
    rcases Nat.lt_or_ge delta 269 with h269 | h269
    · simp only [if_neg h1, if_pos h269, List.cons_append, List.nil_append]
      rw [parseDelta_13]
      have : (delta - 13) % 256 + 13 = delta := by omega
      rw [this]
    · have h2 : ¬ delta < 269 := by omega
      simp only [if_neg h1, if_neg h2, List.cons_append, List.nil_append]
      have hsh : (delta - 269) >>> 8 = (delta - 269) / 256 := by
        simp [Nat.shiftRight_eq_div_pow]
      have hand : (delta - 269) &&& 0xFF = (delta - 269) % 256 := by
        have := Nat.and_pow_two_sub_one_eq_mod (delta - 269) 8
        norm_num at this
        exact this
      rw [hsh, hand, parseDelta_14]
      have hrec : (delta - 269) / 256 % 256 * 256 + (delta - 269) % 256
          = delta - 269 := by omega
      rw [if_pos (by omega)]
      have : (delta - 269) / 256 % 256 * 256 + (delta - 269) % 256 + 269
          = delta := by omega
      rw [this]

/-- `parseLength` inverts the length nibble/extension encoding. -/
theorem parseLength_lengthExt (len : Nat) (hl : len ≤ 65535)
    (tail : List Nat) :
    parseLength (extNibble len) (lengthExtBytes len ++ tail)
      = .ok (len, tail) := by
  unfold extNibble lengthExtBytes
  rcases Nat.lt_or_ge len 13 with h12 | h13
  · have h1 : len ≤ 12 := by omega
    simp only [if_pos h1, List.nil_append]
    exact parseLength_small len (by omega) (by omega) (by omega) tail
  · have h1 : ¬ len ≤ 12 := by omega
    rcases Nat.lt_or_ge len 269 with h269 | h269
    · simp only [if_neg h1, if_pos h269, List.cons_append, List.nil_append]
      rw [parseLength_13]
      have : (len - 13) % 256 + 13 = len := by omega
      rw [this]
    · have h2 : ¬ len < 269 := by omega
      simp only [if_neg h1, if_neg h2, List.cons_append, List.nil_append]
      have hmod : (len - 269) % 65536 = len - 269 := Nat.mod_eq_of_lt (by omega)
      have hsh : ((len - 269) % 65536) >>> 8 = (len - 269) / 256 := by
        rw [hmod]
        simp [Nat.shiftRight_eq_div_pow]
      have hand : (len - 269) % 65536 &&& 0xFF = (len - 269) % 256 := by
        rw [hmod]
        have := Nat.and_pow_two_sub_one_eq_mod (len - 269) 8
        norm_num at this
        exact this
      rw [hsh, hand, parseLength_14]
      rw [if_pos (by omega)]
      have : (len - 269) / 256 % 256 * 256 + (len - 269) % 256 + 269
          = len := by omega
      rw [this]

theorem decodeOptionsLoop_cons (fuel b : Nat) (rest : List Nat)
    (running : Nat) (acc : OptMap) :
    decodeOptionsLoop (fuel + 1) (b :: rest) running acc =
    if b = 255 then .ok (acc, rest)
    else
      match parseDelta (b >>> 4) rest with
      | .error e => .error e
      | .ok (delta, r1) =>
        match parseLength (b &&& 0xF) r1 with
        | .error e => .error e
        | .ok (len, r2) =>
          if 65535 < running + delta then .error .invalidOptionDelta
          else if r2.length < len then .error .invalidOptionLength
          else
            decodeOptionsLoop fuel (r2.drop len) (running + delta)
              (insertOption acc (running + delta) (r2.take len)) := rfl

/-- Decoding an encoded run of flattened option pairs accumulates exactly
those pairs (via `insertOption`) and then continues on the trailing
bytes, having consumed one fuel unit per pair. -/
theorem decode_encodeFlat :
    ∀ (ps : List (Nat × List Nat)) (fuel running : Nat) (acc : OptMap)
      (tail : List Nat),
      pairsOrdered running ps →
      (∀ pr ∈ ps, pr.2.length ≤ 65535) →
      (encodeFlat running ps ++ tail).length ≤ fuel →
      decodeOptionsLoop fuel (encodeFlat running ps ++ tail) running acc
        = decodeOptionsLoop (fuel - ps.length) tail (lastKey running ps)
            (ps.foldl (fun m pr => insertOption m pr.1 pr.2) acc) := by
  intro ps
  induction ps with
  | nil =>
    intro fuel running acc tail _ _ _
    simp [encodeFlat, lastKey]
  | cons hd ps ih =>
    obtain ⟨n, v⟩ := hd
    intro fuel running acc tail hord hlens hfuel
    obtain ⟨hrun, hn, hord'⟩ := hord
    have hv : v.length ≤ 65535 := hlens (n, v) (by simp)
    have hdelta : n - running ≤ 65535 := by omega
    obtain ⟨hshift, hand, hne255⟩ :=
      nibbleByte_facts (extNibble (n - running))
        (by have := extNibble_le (n - running); omega) (extNibble v.length)
        (by have := extNibble_le v.length; omega)
    simp only [encodeFlat, encodeOneValue, List.cons_append, List.append_assoc]
      at hfuel ⊢
    obtain ⟨f, rfl⟩ : ∃ f, fuel = f + 1 := by
      refine ⟨fuel - 1, ?_⟩
      simp only [List.length_cons] at hfuel
      omega
    rw [decodeOptionsLoop_cons]
    rw [if_neg hne255, hshift, hand]
    simp only [parseDelta_deltaExt (n - running) hdelta,
      parseLength_lengthExt v.length hv]
    have hrn : running + (n - running) = n := by omega
    rw [hrn]
    rw [if_neg (by omega : ¬ 65535 < n)]
    rw [if_neg (by simp : ¬ (v ++ (encodeFlat n ps ++ tail)).length < v.length)]
    rw [List.take_left, List.drop_left]
    have hfuel' : (encodeFlat n ps ++ tail).length ≤ f := by
      simp only [List.length_cons, List.length_append] at hfuel ⊢
      omega
    rw [ih f n (insertOption acc n v) tail hord'
      (fun pr hpr => hlens pr (by simp [hpr])) hfuel']
    simp only [List.length_cons, Nat.succ_sub_succ, List.foldl_cons, lastKey]

theorem insertOption_append_new (k : Nat) (v : List Nat) :
    ∀ acc : OptMap, (∀ pr ∈ acc, pr.1 < k) →
      insertOption acc k v = acc ++ [(k, [v])] := by
  intro acc
  induction acc with
  | nil => intro _; rfl
  | cons hd rest ih =>
    obtain ⟨k0, vs0⟩ := hd
    intro hlt
    have hk0 : k0 < k := hlt (k0, vs0) (by simp)
    unfold insertOption
    rw [if_neg (by omega), if_neg (by omega)]
    rw [ih (fun pr hpr => hlt pr (by simp [hpr]))]
    simp

theorem insertOption_append_same (k : Nat) (u : List (List Nat))
    (v : List Nat) :
    ∀ acc : OptMap, (∀ pr ∈ acc, pr.1 < k) →
      insertOption (acc ++ [(k, u)]) k v = acc ++ [(k, u ++ [v])] := by
  intro acc
  induction acc with
  | nil =>
    intro _
    simp only [List.nil_append]
    unfold insertOption
    rw [if_neg (lt_irrefl k), if_pos rfl]
  | cons hd rest ih =>
    obtain ⟨k0, vs0⟩ := hd
    intro hlt
    have hk0 : k0 < k := hlt (k0, vs0) (by simp)
    simp only [List.cons_append]
    unfold insertOption
    rw [if_neg (by omega), if_neg (by omega)]
    rw [ih (fun pr hpr => hlt pr (by simp [hpr]))]

theorem foldl_insert_same_key (k : Nat) :
    ∀ (vs : List (List Nat)) (u : List (List Nat)) (acc : OptMap),
      (∀ pr ∈ acc, pr.1 < k) →
      List.foldl (fun m pr => insertOption m pr.1 pr.2) (acc ++ [(k, u)])
        (vs.map fun v => (k, v))
      = acc ++ [(k, u ++ vs)] := by
  intro vs
  induction vs with
  | nil =>
    intro u acc _
    simp
  | cons v vs ih =>
    intro u acc hlt
    simp only [List.map_cons, List.foldl_cons]
    rw [insertOption_append_same k u v acc hlt]
    rw [ih (u ++ [v]) acc hlt]
    simp

/-- Replaying the flattened pairs of a sorted option map through
`insertOption` (the decoder's accumulation) reconstructs the map. -/
theorem foldl_insert_flatten :
    ∀ (opts : OptMap) (acc : OptMap),
      List.Pairwise (fun a b => a.1 < b.1) opts →
      (∀ pr ∈ opts, pr.2 ≠ []) →
      (∀ pr ∈ acc, ∀ qr ∈ opts, pr.1 < qr.1) →
      List.foldl (fun m pr => insertOption m pr.1 pr.2) acc (flattenOpts opts)
        = acc ++ opts := by
  intro opts
  induction opts with
  | nil =>
    intro acc _ _ _
    simp [flattenOpts]
  | cons hd rest ih =>
    obtain ⟨k, vs⟩ := hd
    intro acc hpair hnonempty hacc
    have hvs : vs ≠ [] := hnonempty (k, vs) (by simp)
    obtain ⟨v0, vs', rfl⟩ : ∃ v0 vs', vs = v0 :: vs' := by
      cases vs with
      | nil => exact absurd rfl hvs
      | cons a b => exact ⟨a, b, rfl⟩
    simp only [flattenOpts, List.map_cons, List.cons_append, List.foldl_cons,
      List.foldl_append]
    have hacck : ∀ pr ∈ acc, pr.1 < k := fun pr hpr =>
      hacc pr hpr (k, v0 :: vs') (by simp)
    rw [insertOption_append_new k v0 acc hacck]
    rw [show List.foldl (fun m pr => insertOption m pr.1 pr.2)
        (acc ++ [(k, [v0])]) (vs'.map fun v => (k, v))
        = acc ++ [(k, [v0] ++ vs')] from
      foldl_insert_same_key k vs' [v0] acc hacck]
    have hkrest : ∀ qr ∈ rest, k < qr.1 := by
      intro qr hqr
      exact (List.pairwise_cons.mp hpair).1 qr hqr
    rw [ih (acc ++ [(k, [v0] ++ vs')])
      (List.pairwise_cons.mp hpair).2
      (fun pr hpr => hnonempty pr (by simp [hpr]))
      (by
        intro pr hpr qr hqr
        rcases List.mem_append.mp hpr with hin | hin
        · exact lt_trans (hacck pr hin) (hkrest qr hqr)
        · simp only [List.mem_singleton] at hin
          subst hin
          exact hkrest qr hqr)]
    simp

/-- The source's nested option-encoding loops agree with the flattened
single loop. -/
theorem encodeValuesList_flat (n : Nat) :
    ∀ (vs : List (List Nat)) (running : Nat) (q : List (Nat × List Nat)),
      encodeFlat running ((vs.map fun v => (n, v)) ++ q)
        = encodeValuesList n running vs
          ++ encodeFlat (if vs.isEmpty then running else n) q := by
  intro vs
  induction vs with
  | nil =>
    intro running q
    simp [encodeValuesList]
  | cons v vs ih =>
    intro running q
    simp only [List.map_cons, List.cons_append, encodeFlat, encodeValuesList,
      List.append_eq]
    rw [ih n q]
    have h1 : (if vs.isEmpty = true then n else n) = n := by
      split <;> rfl
    have h2 : (if (v :: vs).isEmpty = true then running else n) = n := rfl
    rw [h1, h2, List.append_assoc]

theorem encodeOptionsList_eq_flat :
    ∀ (opts : OptMap) (running : Nat),
      encodeOptionsList running opts = encodeFlat running (flattenOpts opts) := by
  intro opts
  induction opts with
  | nil => intro running; rfl
  | cons hd rest ih =>
    obtain ⟨n, vs⟩ := hd
    intro running
    simp only [encodeOptionsList, flattenOpts]
    rw [encodeValuesList_flat n vs running (flattenOpts rest)]
    rw [ih (if vs.isEmpty then running else n)]

/-- Pairs that repeat the running key preserve ordering. -/
theorem pairsOrdered_self_map (k : Nat) (hk : k ≤ 65535) :
    ∀ (vs : List (List Nat)) (q : List (Nat × List Nat)),
      pairsOrdered k q →
      pairsOrdered k ((vs.map fun v => (k, v)) ++ q) := by
  intro vs
  induction vs with
  | nil =>
    intro q hq
    simpa using hq
  | cons v vs ih =>
    intro q hq
    simp only [List.map_cons, List.cons_append, pairsOrdered]
    exact ⟨le_refl k, hk, ih q hq⟩

/-- Ordering of the flattened pairs of a sorted option map. -/
theorem pairsOrdered_flatten :
    ∀ (opts : OptMap) (running : Nat),
      List.Pairwise (fun a b => a.1 < b.1) opts →
      (∀ pr ∈ opts, pr.1 ≤ 65535) →
      (∀ pr ∈ opts, pr.2 ≠ []) →
      (∀ pr ∈ opts, running ≤ pr.1) →
      pairsOrdered running (flattenOpts opts) := by
  intro opts
  induction opts with
  | nil =>
    intro running _ _ _ _
    exact trivial
  | cons hd rest ih =>
    obtain ⟨k, vs⟩ := hd
    intro running hpair hle hne hrun
    have hk : k ≤ 65535 := hle (k, vs) (by simp)
    have hrk : running ≤ k := hrun (k, vs) (by simp)
    have hrest : pairsOrdered k (flattenOpts rest) :=
      ih k (List.pairwise_cons.mp hpair).2
        (fun pr hpr => hle pr (by simp [hpr]))
        (fun pr hpr => hne pr (by simp [hpr]))
        (fun pr hpr => le_of_lt ((List.pairwise_cons.mp hpair).1 pr hpr))
    have hvs : vs ≠ [] := hne (k, vs) (by simp)
    obtain ⟨v0, vs2, rfl⟩ : ∃ v0 vs2, vs = v0 :: vs2 := by
      cases vs with
      | nil => exact absurd rfl hvs
      | cons a b => exact ⟨a, b, rfl⟩
    simp only [flattenOpts, List.map_cons, List.cons_append, pairsOrdered]
    exact ⟨hrk, hk, pairsOrdered_self_map k hk vs2 (flattenOpts rest) hrest⟩

/-- Every value of a flattened pair is no longer than the whole encoded
option byte string. -/
theorem flat_value_length_le :
    ∀ (ps : List (Nat × List Nat)) (running : Nat), ∀ pr ∈ ps,
      pr.2.length ≤ (encodeFlat running ps).length := by
  intro ps
  induction ps with
  | nil =>
    intro running pr hpr
    cases hpr
  | cons hd ps ih =>
    obtain ⟨n, v⟩ := hd
    intro running pr hpr
    simp only [encodeFlat, encodeOneValue, List.length_append,
      List.length_cons]
    rcases List.mem_cons.mp hpr with rfl | hin
    · simp only [List.length_append]
      omega
    · have := ih n pr hin
      omega

/-- Each flattened pair contributes at least one encoded byte. -/
theorem flat_count_le :
    ∀ (ps : List (Nat × List Nat)) (running : Nat),
      ps.length ≤ (encodeFlat running ps).length := by
  intro ps
  induction ps with
  | nil => intro running; simp [encodeFlat]
  | cons hd ps ih =>
    obtain ⟨n, v⟩ := hd
    intro running
    simp only [encodeFlat, encodeOneValue, List.length_append,
      List.length_cons]
    have := ih n
    omega

/-- Full option-section decode of an encoded sorted option map: the
decoder reconstructs the map and proceeds to the remaining bytes with
fuel to spare for them. -/
theorem decode_options_full (options : OptMap) (tail : List Nat)
    (hpair : List.Pairwise (fun a b => a.1 < b.1) options)
    (hopts : ∀ pr ∈ options, pr.1 ≤ 65535 ∧ pr.2 ≠ [])
    (hvbound : ∀ pr ∈ flattenOpts options, pr.2.length ≤ 65535) :
    decodeOptionsLoop (encodeOptionsList 0 options ++ tail).length
        (encodeOptionsList 0 options ++ tail) 0 []
      = decodeOptionsLoop
          (((encodeOptionsList 0 options).length
              - (flattenOpts options).length) + tail.length)
          tail (lastKey 0 (flattenOpts options)) options := by
  have hflat := encodeOptionsList_eq_flat options 0
  have hord := pairsOrdered_flatten options 0 hpair
    (fun pr h => (hopts pr h).1) (fun pr h => (hopts pr h).2)
    (fun pr _ => Nat.zero_le pr.1)
  have hcount := flat_count_le (flattenOpts options) 0
  rw [hflat]
  rw [decode_encodeFlat (flattenOpts options)
    (encodeFlat 0 (flattenOpts options) ++ tail).length 0 [] tail hord hvbound
    (le_refl _)]
  rw [foldl_insert_flatten options [] hpair (fun pr h => (hopts pr h).2)
    (fun pr hpr => absurd hpr (List.not_mem_nil pr))]
  have harith : (encodeFlat 0 (flattenOpts options) ++ tail).length
      - (flattenOpts options).length
      = ((encodeFlat 0 (flattenOpts options)).length
          - (flattenOpts options).length) + tail.length := by
    rw [List.length_append]
    omega
  rw [harith, List.nil_append]

/-- **C1** (amended).  For every packet with valid fields *whose code byte
round-trips* (codes `Request(UnKnown)`, `Response(UnKnown)` and
`Reserved` all serialize to `0xFF` and decode to `Reserved`, so they are
excluded; see the counterexample), a successful `to_bytes` followed by
`from_bytes` returns the original packet: equal header, token, options
(same numbers, same ordered value sequences) and payload. -/
theorem C1_roundtrip_amended (p : Packet) (buf : List Nat)
    (hval : PacketValid p)
    (hcode : classOfByte (classToByte p.header.code) = p.header.code)
    (henc : toBytes p = .ok buf) :
    fromBytes buf = .ok p := by
  have hshape := toBytesInternal_ok p (some 1280) buf henc
  have hle := toBytesInternal_ok_le p 1280 buf henc
  obtain ⟨⟨vtt, code, mid⟩, token, options, payload⟩ := p
  obtain ⟨hmid, htklEq, htkl8, hpair, hopts, hempty⟩ := hval
  have hcode' : classOfByte (classToByte code) = code := hcode
  have htkl : 0x0F &&& vtt = token.length := htklEq
  have htkl8' : token.length ≤ 8 := htkl8
  have hmid' : mid < 65536 := hmid
  have hempty' : code = MessageClass.empty → payload = [] := hempty
  subst hshape
  dsimp only at hle ⊢
  have hoptlen : (encodeOptionsList 0 options).length ≤ 65535 := by
    split at hle <;> omega
  have hvbound : ∀ pr ∈ flattenOpts options, pr.2.length ≤ 65535 := by
    intro pr hpr
    have h1 := flat_value_length_le (flattenOpts options) 0 pr hpr
    rw [← encodeOptionsList_eq_flat] at h1
    omega
  have hmideq : (mid / 256 % 256) * 256 + mid % 256 = mid := by omega
  rcases Classical.em (code ≠ MessageClass.empty ∧ payload ≠ []) with hm | hm
  · simp only [if_pos hm, headerSerialize, List.cons_append, List.nil_append,
      List.append_assoc]
    rw [fromBytes_cons, htkl]
    rw [if_neg (by omega : ¬ 8 < token.length)]
    have hlen2 : ¬ (token ++ (encodeOptionsList 0 options
        ++ 255 :: payload)).length < token.length := by
      rw [List.length_append]
      omega
    rw [if_neg hlen2, List.drop_left, List.take_left]
    have hdec : decodeOptionsLoop
        (encodeOptionsList 0 options ++ 255 :: payload).length
        (encodeOptionsList 0 options ++ 255 :: payload) 0 []
        = .ok (options, payload) := by
      rw [decode_options_full options (255 :: payload) hpair hopts hvbound]
      rw [show (255 :: payload).length = payload.length + 1 from rfl,
        ← Nat.add_assoc]
      exact decodeOptionsLoop_marker _ _ _ _
    simp only [hdec]
    rw [hcode', hmideq]
  · have hpl : payload = [] := by
      by_cases hc : code = MessageClass.empty
      · exact hempty' hc
      · exact Classical.byContradiction fun hne => hm ⟨hc, fun h => hne h⟩
    subst hpl
    simp only [if_neg hm, headerSerialize, List.cons_append, List.nil_append,
      List.append_assoc]
    rw [fromBytes_cons, htkl]
    rw [if_neg (by omega : ¬ 8 < token.length)]
    have hlen2 : ¬ (token ++ (encodeOptionsList 0 options
        ++ [])).length < token.length := by
      rw [List.length_append]
      omega
    rw [if_neg hlen2, List.drop_left, List.take_left]
    have hdec : decodeOptionsLoop (encodeOptionsList 0 options ++ []).length
        (encodeOptionsList 0 options ++ []) 0 []
        = .ok (options, []) := by
      rw [decode_options_full options [] hpair hopts hvbound]
      exact decodeOptionsLoop_nil _ _ _
    simp only [hdec]
    rw [hcode', hmideq]

set_option maxRecDepth 40000 in
/-- Witness for C1: the packet `c1pkt` is valid, its code round-trips,
it encodes to `c1buf`, and decoding `c1buf` returns `c1pkt`. -/
theorem C1_roundtrip_amended_witness :
    PacketValid c1pkt
      ∧ classOfByte (classToByte c1pkt.header.code) = c1pkt.header.code
      ∧ toBytes c1pkt = .ok c1buf
      ∧ fromBytes c1buf = .ok c1pkt :=
  ⟨by decide, by decide, by decide,
    C1_roundtrip_amended c1pkt c1buf (by decide) (by decide) (by decide)⟩

set_option maxRecDepth 40000 in
/-- **C1 counterexample**.  The packet `c1badPkt` has valid fields in the
claim's sense, yet `decode (encode c1badPkt) ≠ c1badPkt`: its code
`Request(UnKnown)` serializes to the byte `0xFF`, which decodes to
`Reserved`. -/
theorem C1_counterexample :
    PacketValid c1badPkt
      ∧ toBytes c1badPkt = .ok [0x40, 0xFF, 0x00, 0x00]
      ∧ fromBytes [0x40, 0xFF, 0x00, 0x00]
          = .ok { header := { verTypeTkl := 0x40,
                              code := MessageClass.reserved, messageId := 0 },
                  token := [], options := [], payload := [] }
      ∧ fromBytes [0x40, 0xFF, 0x00, 0x00] ≠ .ok c1badPkt := by
  refine ⟨by decide, by decide, by decide, by decide⟩

/-- **C6**.  `intercept_request` on a request carrying a Block1 option,
when the response slot is present and the size negotiation and the
splice into the reassembly buffer succeed: if the block's `more` flag is
true, the spliced buffer is cached, the response code becomes 2.31
Continue with a Block1 option added, and the call returns `Ok(true)`
(handled); if `more` is false, the reassembled buffer replaces the
request's payload, a Block1 option is added to the response (code
unchanged), the cached buffer is cleared, and the call returns
`Ok(false)` so the application processes the full request. -/
theorem C6_block1_intercept {E : Type} [DecidableEq E]
    (h : BlockHandlerM E) (req : CoapRequestM E) (rsp : CoapResponseM)
    (rb respB : BlockValue) (st0 : BlockState) (msize : Nat)
    (newBuf : List Nat)
    (hb1 : getFirstBlockOption req.message 27 = some rb)
    (hrsp : req.response = some rsp)
    (hst : (lookupState h.states (requestCacheKey req)).getD
      defaultBlockState = st0)
    (hmsize : computeMessageSizeHack req.message = some msize)
    (hneg : negotiateBlockSizeIfNecessary (some rb) msize
        req.message.payload.length h.maxTotalMessageSize
      = some (Except.ok (some respB)))
    (hsplice : extendingSplice (st0.cachedRequestPayload.getD [])
        (rb.num * rb.size) (rb.num * rb.size + rb.size) req.message.payload
        maximumUncommittedBufferReserveLength = Except.ok newBuf)
    (hnoB2 : getFirstBlockOption req.message 23 = none) :
    (rb.more = true →
      interceptRequest h req = some (Except.ok true,
        { req with response := some { message := Packet.withCode (rsp.message.addOption 27 (blockToBytes respB)) (MessageClass.response ResponseType.continues) } },
        { h with states := insertState h.states (requestCacheKey req) { st0 with cachedRequestPayload := some newBuf } }))
    ∧ (rb.more = false →
      interceptRequest h req = some (Except.ok false,
        { req with
            message := { req.message with payload := newBuf },
            response := some { message := rsp.message.addOption 27 (blockToBytes respB) } },
        { h with states := insertState h.states (requestCacheKey req) { st0 with lastRequestBlock2 := none, cachedRequestPayload := none } })) := by
  have hb2' : getFirstBlockOption
      { req.message with payload := newBuf } 23 = none := hnoB2
  constructor
  · intro hmore
    simp only [interceptRequest, maybeHandleRequestBlock1, hst, hmsize, hb1,
      hneg, hsplice, hrsp, hmore, if_true]
  · intro hmore
    simp only [interceptRequest, maybeHandleRequestBlock1,
      maybeHandleRequestBlock2, hst, hmsize, hb1, hneg, hsplice, hrsp, hmore,
      hb2', Bool.false_eq_true, if_false]

set_option maxRecDepth 40000 in
/-- Witness for C6: the concrete POST of the `c6req` scenario carries
Block1 `num 0, more true, size 16`; `intercept_request` caches the
spliced body, answers 2.31 Continue with Block1 set and reports
handled. -/
theorem C6_block1_intercept_witness :
    getFirstBlockOption c6req.message 27 = some c6rb
      ∧ c6rb.more = true
      ∧ interceptRequest c6handler c6req = some (Except.ok true,
          { c6req with response := some { message := Packet.withCode (defaultPacket.addOption 27 (blockToBytes c6respB)) (MessageClass.response ResponseType.continues) } },
          { c6handler with states := insertState c6handler.states (requestCacheKey c6req) { defaultBlockState with cachedRequestPayload := some [1, 2, 3] } }) :=
  ⟨by decide, rfl,
    (C6_block1_intercept c6handler c6req { message := defaultPacket } c6rb
      c6respB defaultBlockState 10 [1, 2, 3] (by decide) rfl rfl (by decide)
      (by decide) (by decide) (by decide)).1 rfl⟩

/-- Field effects of a successful `packet_clone_limited`: message id and
payload come from `dst`; code, token and options come from `src`; the
token-length assert passed; and the exact bit chain written into the
version/type/token-length byte. -/
theorem packetCloneLimited_spec (dst src cloned : Packet)
    (h : packetCloneLimited dst src = some cloned) :
    cloned.header.messageId = dst.header.messageId
      ∧ cloned.header.code = src.header.code
      ∧ cloned.token = src.token
      ∧ cloned.payload = dst.payload
      ∧ cloned.options = src.options.foldl
          (fun m pr => setOption m pr.1 pr.2) dst.options
      ∧ 0xF0 &&& (src.token.length % 256) = 0
      ∧ cloned.header.verTypeTkl
          = (src.token.length % 256) ||| (0xF0 &&& (((src.header.getType).toBits <<< 4) ||| (0xCF &&& (((src.header.getVersion <<< 6) % 256) ||| (0x3F &&& dst.header.verTypeTkl))))) := by
  simp only [packetCloneLimited, Header.setTokenLength, Header.setVersion,
    Header.setType] at h
  split at h
  next => cases h
  next h4 heq =>
    injection h with h
    subst h
    split at heq
    next hcond =>
      injection heq with heq
      subst heq
      exact ⟨rfl, rfl, rfl, rfl, rfl, hcond, rfl⟩
    next => cases heq

theorem toBits_lt (t : MessageType) : t.toBits < 4 := by
  cases t <;> decide

/-- `get_type` is determined by the two type bits. -/
theorem getType_of_typeBits (h : Header) (t : MessageType)
    (ht : h.typeBits = t.toBits) : h.getType = t := by
  cases t <;> simp [Header.getType, ht, MessageType.toBits]

set_option maxRecDepth 100000 in
/-- The version and type bits survive the
`set_version`/`set_type`/`set_token_length` write chain of
`packet_clone_limited`. -/
theorem cloneBits_facts :
    ∀ ver < 4, ∀ tn < 4, ∀ e < 64, ∀ tk < 16,
      (tk ||| (0xF0 &&& ((tn <<< 4) ||| (0xCF &&& (((ver <<< 6) % 256) ||| e))))) >>> 6 = ver
        ∧ (0x30 &&& (tk ||| (0xF0 &&& ((tn <<< 4) ||| (0xCF &&& (((ver <<< 6) % 256) ||| e)))))) >>> 4 = tn
        ∧ 0x0F &&& (tk ||| (0xF0 &&& ((tn <<< 4) ||| (0xCF &&& (((ver <<< 6) % 256) ||| e))))) = tk := by
  decide

theorem getOptionVals_setOption_self :
    ∀ (m : OptMap) (n : Nat) (vs : List (List Nat)),
      getOptionVals (setOption m n vs) n = some vs := by
  intro m
  induction m with
  | nil =>
    intro n vs
    simp [setOption, getOptionVals]
  | cons hd rest ih =>
    obtain ⟨k, ws⟩ := hd
    intro n vs
    by_cases h1 : n < k
    · simp [setOption, if_pos h1, getOptionVals]
    · by_cases h2 : n = k
      · simp [setOption, if_neg h1, if_pos h2, getOptionVals]
      · simp only [setOption, if_neg h1, if_neg h2, getOptionVals,
          if_neg (by omega : ¬ k = n)]
        exact ih n vs

theorem getOptionVals_setOption_other :
    ∀ (m : OptMap) (n : Nat) (vs : List (List Nat)) (j : Nat), j ≠ n →
      getOptionVals (setOption m n vs) j = getOptionVals m j := by
  intro m
  induction m with
  | nil =>
    intro n vs j hj
    simp [setOption, getOptionVals, if_neg (by omega : ¬ n = j)]
  | cons hd rest ih =>
    obtain ⟨k, ws⟩ := hd
    intro n vs j hj
    by_cases h1 : n < k
    · simp [setOption, if_pos h1, getOptionVals, if_neg (by omega : ¬ n = j)]
    · by_cases h2 : n = k
      · subst h2
        simp [setOption, if_neg h1, getOptionVals,
          if_neg (by omega : ¬ n = j)]
      · simp only [setOption, if_neg h1, if_neg h2, getOptionVals]
        by_cases h3 : k = j
        · simp [if_pos h3]
        · simp only [if_neg h3]
          exact ih n vs j hj

theorem foldl_setOption_preserve :
    ∀ (src : OptMap) (m : OptMap) (j : Nat),
      (∀ pr ∈ src, pr.1 ≠ j) →
      getOptionVals (src.foldl (fun acc pr => setOption acc pr.1 pr.2) m) j
        = getOptionVals m j := by
  intro src
  induction src with
  | nil =>
    intro m j _
    rfl
  | cons hd rest ih =>
    intro m j hne
    simp only [List.foldl_cons]
    rw [ih (setOption m hd.1 hd.2) j
      (fun pr hpr => hne pr (List.mem_cons_of_mem hd hpr))]
    exact getOptionVals_setOption_other m hd.1 hd.2 j
      (fun hh => hne hd (List.mem_cons_self hd rest) hh.symm)

/-- Copying a sorted option map into another map via repeated
`BTreeMap::insert` preserves every binding of the copied map. -/
theorem foldl_setOption_mem :
    ∀ (src : OptMap) (m : OptMap) (n : Nat) (vs : List (List Nat)),
      List.Pairwise (fun a b => a.1 < b.1) src →
      getOptionVals src n = some vs →
      getOptionVals (src.foldl (fun acc pr => setOption acc pr.1 pr.2) m) n
        = some vs := by
  intro src
  induction src with
  | nil =>
    intro m n vs _ hg
    cases hg
  | cons hd rest ih =>
    obtain ⟨k, ws⟩ := hd
    intro m n vs hpair hg
    simp only [List.foldl_cons]
    by_cases hk : k = n
    · subst hk
      have hws : ws = vs := by
        simpa [getOptionVals] using hg
      subst hws
      rw [foldl_setOption_preserve rest (setOption m k ws) k
        (fun pr hpr =>
          Ne.symm (Nat.ne_of_lt ((List.pairwise_cons.mp hpair).1 pr hpr)))]
      exact getOptionVals_setOption_self m k ws
    · have hg' : getOptionVals rest n = some vs := by
        simpa [getOptionVals, hk] using hg
      exact ih (setOption m k ws) n vs (List.pairwise_cons.mp hpair).2 hg'

theorem chunksOfAux_fuel_irrel (size : Nat) (hs : 0 < size) :
    ∀ f1 f2 l, l.length ≤ f1 → l.length ≤ f2 →
      chunksOfAux f1 size l = chunksOfAux f2 size l := by
  intro f1
  induction f1 with
  | zero =>
    intro f2 l h1 _
    have hl : l = [] := List.eq_nil_of_length_eq_zero (by omega)
    subst hl
    cases f2 <;> rfl
  | succ f1 ih =>
    intro f2 l h1 h2
    cases l with
    | nil => cases f2 <;> rfl
    | cons x xs =>
      cases f2 with
      | zero => simp at h2
      | succ f2 =>
        show (x :: xs).take size :: chunksOfAux f1 size ((x :: xs).drop size)
          = (x :: xs).take size :: chunksOfAux f2 size ((x :: xs).drop size)
        congr 1
        apply ih
        · rw [List.length_drop]
          simp only [List.length_cons] at h1 ⊢
          omega
        · rw [List.length_drop]
          simp only [List.length_cons] at h2 ⊢
          omega

theorem chunksOf_cons (size : Nat) (hs : 0 < size) (x : Nat) (xs : List Nat) :
    chunksOf size (x :: xs)
      = (x :: xs).take size :: chunksOf size ((x :: xs).drop size) := by
  show (x :: xs).take size :: chunksOfAux xs.length size ((x :: xs).drop size)
    = (x :: xs).take size :: chunksOf size ((x :: xs).drop size)
  congr 1
  apply chunksOfAux_fuel_irrel size hs
  · rw [List.length_drop]
    simp only [List.length_cons]
    omega
  · exact le_refl _

theorem chunksOf_ne_nil (size x : Nat) (xs : List Nat) :
    chunksOf size (x :: xs) ≠ [] := by
  show (x :: xs).take size :: chunksOfAux xs.length size ((x :: xs).drop size)
    ≠ []
  simp

theorem chunksOf_eq_nil_iff (size : Nat) (l : List Nat) :
    chunksOf size l = [] ↔ l = [] := by
  cases l with
  | nil => exact ⟨fun _ => rfl, fun _ => rfl⟩
  | cons x xs =>
    exact ⟨fun h => absurd h (chunksOf_ne_nil size x xs), fun h => by cases h⟩

/-- The `n`-th chunk of `slice::chunks` is the slice
`[n*size, n*size + size)`, and it is the last chunk exactly when the
input ends within it. -/
theorem chunksOf_drop_head (size : Nat) (hs : 0 < size) :
    ∀ (n : Nat) (l : List Nat) (chunk : List Nat)
      (restChunks : List (List Nat)),
      (chunksOf size l).drop n = chunk :: restChunks →
      chunk = (l.drop (n * size)).take size
        ∧ (restChunks = [] ↔ l.length ≤ (n + 1) * size) := by
  intro n
  induction n with
  | zero =>
    intro l chunk restChunks h
    cases l with
    | nil => exact absurd h (by simp [chunksOf, chunksOfAux])
    | cons x xs =>
      rw [chunksOf_cons size hs, List.drop_zero] at h
      injection h with h1 h2
      constructor
      · rw [← h1]
        simp
      · rw [← h2, chunksOf_eq_nil_iff, List.drop_eq_nil_iff]
        simp
  | succ n ih =>
    intro l chunk restChunks h
    cases l with
    | nil => exact absurd h (by simp [chunksOf, chunksOfAux])
    | cons x xs =>
      rw [chunksOf_cons size hs, List.drop_succ_cons] at h
      obtain ⟨h1, h2⟩ := ih ((x :: xs).drop size) chunk restChunks h
      constructor
      · rw [h1, List.drop_drop,
          show size + n * size = (n + 1) * size from by ring]
      · rw [h2, List.length_drop,
          show (n + 1 + 1) * size = (n + 1) * size + size from by ring]
        generalize (n + 1) * size = A
        simp only [List.length_cons]
        omega

/-- **C8**.  Serving a follow-up Block2 request from the cached response:
the outbound response keeps the current request's message id and the
empty pre-existing payload slot receives exactly the requested slice
`[num*size, num*size+size)` of the cached payload, with a Block2 option
whose `more` flag says whether another slice follows; version, type,
code, token and every option of the cached response are copied in. -/
theorem C8_cached_block2_serving {E : Type} (req : CoapRequestM E)
    (rsp : CoapResponseM) (rb2 : BlockValue) (cached cloned : Packet)
    (chunk : List Nat) (restChunks : List (List Nat))
    (hrsp : req.response = some rsp)
    (hsrcByte : cached.header.verTypeTkl < 256)
    (hsorted : List.Pairwise (fun a b => a.1 < b.1) cached.options)
    (hclone : packetCloneLimited rsp.message cached = some cloned)
    (hchunks : (chunksOf rb2.size cached.payload).drop rb2.num
      = chunk :: restChunks) :
    maybeServeCachedResponse req rb2 cached
        = some (Except.ok (decide (restChunks ≠ [])),
          { req with response := some { message := ({ cloned with payload := chunk }).setOptionList 23 [blockToBytes { rb2 with more := decide (restChunks ≠ []) }] } })
      ∧ cloned.header.messageId = rsp.message.header.messageId
      ∧ cloned.header.code = cached.header.code
      ∧ cloned.header.getVersion = cached.header.getVersion
      ∧ cloned.header.getType = cached.header.getType
      ∧ cloned.token = cached.token
      ∧ cloned.payload = rsp.message.payload
      ∧ (∀ n vs, getOptionVals cached.options n = some vs →
          getOptionVals cloned.options n = some vs)
      ∧ chunk = (cached.payload.drop (rb2.num * rb2.size)).take rb2.size
      ∧ (restChunks = []
          ↔ cached.payload.length ≤ (rb2.num + 1) * rb2.size) := by
  have hsz : 0 < rb2.size := by
    rw [BlockValue.size, Nat.shiftLeft_eq]
    positivity
  obtain ⟨hmid, hcode, htok, hpl, hopts, htkbit, hvtt⟩ :=
    packetCloneLimited_spec rsp.message cached cloned hclone
  obtain ⟨hchunkEq, hrestIff⟩ :=
    chunksOf_drop_head rb2.size hsz rb2.num cached.payload chunk restChunks
      hchunks
  have hver : cached.header.getVersion < 4 := by
    show cached.header.verTypeTkl >>> 6 < 4
    rw [Nat.shiftRight_eq_div_pow]
    norm_num
    omega
  have htn : (cached.header.getType).toBits < 4 := toBits_lt _
  have htk : cached.token.length % 256 < 16 := by
    have h256 : cached.token.length % 256 < 256 := Nat.mod_lt _ (by omega)
    exact (and240_eq_zero_iff (cached.token.length % 256) h256).mp htkbit
  have he : 0x3F &&& rsp.message.header.verTypeTkl < 64 :=
    lt_of_le_of_lt Nat.and_le_left (by norm_num)
  obtain ⟨hb1, hb2, _⟩ := cloneBits_facts cached.header.getVersion hver
    (cached.header.getType).toBits htn
    (0x3F &&& rsp.message.header.verTypeTkl) he
    (cached.token.length % 256) htk
  have hverEq : cloned.header.getVersion = cached.header.getVersion := by
    show cloned.header.verTypeTkl >>> 6 = _
    rw [hvtt]
    exact hb1
  have htypeEq : cloned.header.getType = cached.header.getType := by
    apply getType_of_typeBits
    show (0x30 &&& cloned.header.verTypeTkl) >>> 4 = _
    rw [hvtt]
    exact hb2
  have hmain : maybeServeCachedResponse req rb2 cached
      = some (Except.ok (decide (restChunks ≠ [])),
        { req with response := some { message := ({ cloned with payload := chunk }).setOptionList 23 [blockToBytes { rb2 with more := decide (restChunks ≠ []) }] } }) := by
    simp only [maybeServeCachedResponse, hrsp, hclone, hchunks]
  have hoptCopy : ∀ n vs, getOptionVals cached.options n = some vs →
      getOptionVals cloned.options n = some vs := by
    intro n vs hg
    rw [hopts]
    exact foldl_setOption_mem cached.options rsp.message.options n vs
      hsorted hg
  exact ⟨hmain, hmid, hcode, hverEq, htypeEq, htok, hpl, hoptCopy,
    hchunkEq, hrestIff⟩

set_option maxRecDepth 40000 in
/-- Witness for C8: the concrete follow-up Block2 request of the `c8req`
scenario is served the slice `[16, 32)` of the 40-byte cached payload
with `more = true`, keeps message id 7, and copies version, type, code,
token and the cached option 4. -/
theorem C8_cached_block2_serving_witness :
    maybeServeCachedResponse c8req c8rb2 c8cached
        = some (Except.ok true,
          { c8req with response := some { message := ({ c8cloned with payload := c8chunk }).setOptionList 23 [[24]] } })
      ∧ c8cloned.header.messageId = c8rsp.message.header.messageId
      ∧ c8cloned.header.code = c8cached.header.code
      ∧ c8cloned.header.getVersion = c8cached.header.getVersion
      ∧ c8cloned.header.getType = c8cached.header.getType
      ∧ c8cloned.token = c8cached.token
      ∧ c8cloned.payload = c8rsp.message.payload
      ∧ (∀ n vs, getOptionVals c8cached.options n = some vs →
          getOptionVals c8cloned.options n = some vs)
      ∧ c8chunk = (c8cached.payload.drop 16).take 16
      ∧ (c8restChunks = [] ↔ c8cached.payload.length ≤ 32) :=
  C8_cached_block2_serving c8req c8rsp c8rb2 c8cached c8cloned c8chunk
    c8restChunks rfl (by decide) (by decide) (by decide) (by decide)

end CoapLite
